import Mathlib

/-!
Verification of the SliteToConfluence migrator (src/s2c_migator.py,
src/utils/markdown_sanitiser.py) against its natural-language specification.

The Python code is shallowly embedded: strings are Lean `String`s (operated on
through their `List Char` data), dictionaries preserving insertion order are
association lists, and the Confluence REST client, the file system and the
logger are oracle parameters.  Line breaks are modelled as '\n' (the only line
separator appearing in the migrated documents).
-/

namespace S2C

/-- Python whitespace for `str.strip` / `str.split` / regex `\s`:
space, tab, newline, carriage return, vertical tab, form feed. -/
def isPyWs (c : Char) : Bool :=
  c = ' ' || c = '\t' || c = '\n' || c = '\r' || c = '\x0b' || c = '\x0c'

/-- Characterwise lower-casing, modelling Python `str.lower` on the ASCII
range used by the migrator. -/
def pyLower (s : String) : String := String.mk (s.data.map Char.toLower)

/-- Characterwise upper-casing, modelling Python `str.upper` on the ASCII
range used by the migrator. -/
def pyUpper (s : String) : String := String.mk (s.data.map Char.toUpper)

/-- Python `str.lstrip()` (no argument): drop leading whitespace. -/
def pyLstrip (s : String) : String := String.mk (s.data.dropWhile isPyWs)

/-- Python `str.strip()` (no argument): drop leading and trailing whitespace. -/
def pyStrip (s : String) : String :=
  String.mk (((s.data.dropWhile isPyWs).reverse.dropWhile isPyWs).reverse)

/-- Helper for `pySplitWs`: accumulate the current word (reversed). -/
def pySplitWsAux : List Char → List Char → List (List Char)
  | [], acc => if acc.isEmpty then [] else [acc.reverse]
  | c :: cs, acc =>
      if isPyWs c then
        if acc.isEmpty then pySplitWsAux cs [] else acc.reverse :: pySplitWsAux cs []
      else pySplitWsAux cs (c :: acc)

/-- Python `str.split()` (no argument): split on runs of whitespace,
discarding empty pieces. -/
def pySplitWs (s : String) : List String := (pySplitWsAux s.data []).map String.mk

/-- Helper for `pySplitlines`: accumulate the current line (reversed). -/
def pySplitlinesAux : List Char → List Char → List (List Char)
  | [], acc => if acc.isEmpty then [] else [acc.reverse]
  | c :: cs, acc =>
      if c = '\n' then acc.reverse :: pySplitlinesAux cs []
      else pySplitlinesAux cs (c :: acc)

/-- Python `str.splitlines()` with '\n' line breaks: no trailing empty line is
produced for a trailing newline, and the empty string has no lines. -/
def pySplitlines (s : String) : List String := (pySplitlinesAux s.data []).map String.mk

/-- Model of `SliteToConfluenceMigrator._generate_space_key`:
`words = name.upper().replace("-", " ").split()`;
`key = "".join(word[0] for word in words)[:10]`; fall back to
`name[:10].upper()` when the join is empty. -/
def generate_space_key (name : String) : String :=
  let words := pySplitWsAux ((pyUpper name).data.map fun c => if c = '-' then ' ' else c) []
  let key := (words.map (List.take 1)).flatten.take 10
  if key.isEmpty then String.mk ((name.data.take 10).map Char.toUpper)
  else String.mk key

/-- Model of `SliteToConfluenceMigrator.remove_slite_meta_data`:
`lines = page_content.splitlines()[6:]` then `"\n".join(lines).lstrip()`. -/
def remove_slite_meta_data (page_content : String) : String :=
  let lines := (pySplitlines page_content).drop 6
  pyLstrip (String.intercalate "\n" lines)

/-! ### Admonition conversion (`convert_admonitions`)

The function operates on the HTML produced by the markdown conversion via
BeautifulSoup.  The DOM is modelled at the granularity the function uses: a
document is a list of blocks, a blockquote holds its paragraph children, and a
paragraph is its inner text (paragraphs reaching this stage are plain text, so
`p.text` and `p.decode_contents()` coincide in the model).  A converted
admonition (`ac:structured-macro` with a rich-text body) is a `callout` block.
-/
/-- Regex `\w` on the ASCII range: letters, digits, underscore. -/
def isWordChar (c : Char) : Bool := c.isAlphanum || c = '_'

/-- Model of `re.match(r'\[\!(\w+)\]', s)`: an anchored match of a
`[!KIND]` marker, returning the kind word. -/
def match_admonition (s : String) : Option String :=
  match s.data with
  | '[' :: '!' :: cs =>
      let w := cs.takeWhile isWordChar
      if w.isEmpty then none
      else
        match cs.dropWhile isWordChar with
        | ']' :: _ => some (String.mk w)
        | _ => none
  | _ => none

/-- Model of `re.sub(r'^\[\!\w+\]\s*', '', content)`: strip one leading
`[!KIND]` marker and the whitespace after it, if present. -/
def strip_marker (s : String) : String :=
  match s.data with
  | '[' :: '!' :: cs =>
      let w := cs.takeWhile isWordChar
      if w.isEmpty then s
      else
        match cs.dropWhile isWordChar with
        | ']' :: rs => String.mk (rs.dropWhile isPyWs)
        | _ => s
  | _ => s

/-- The dictionary mapping admonition kinds to Confluence panel names in
`convert_admonitions` (the source calls it the macro map): Slite's `note`
deliberately becomes Confluence's `info`; unknown kinds default to `info`. -/
def admonitionKindMap (t : String) : String :=
  if t = "note" then "info"
  else if t = "warning" then "warning"
  else if t = "tip" then "tip"
  else if t = "important" then "important"
  else if t = "caution" then "caution"
  else "info"

/-- A block of the HTML document at the granularity `convert_admonitions`
works with: a paragraph, a blockquote of paragraphs, or an emitted
Confluence callout (an `ac:structured-macro` panel wrapping the content). -/
inductive HtmlBlock where
  | para (content : String)
  | blockquote (paras : List String)
  | callout (kind : String) (content : String)
deriving Repr, DecidableEq

/-- Per-paragraph body of the loop in `convert_admonitions`: an admonition
paragraph becomes a callout unless its content is empty after
marker-stripping (then it is skipped); other paragraphs are kept as-is. -/
def convertPara (p : String) : Option HtmlBlock :=
  match match_admonition (pyStrip p) with
  | some kind =>
      let content := strip_marker p
      if content = "" then none
      else some (HtmlBlock.callout (admonitionKindMap (pyLower kind)) content)
  | none => some (HtmlBlock.para p)

/-- Model of `SliteToConfluenceMigrator.convert_admonitions`: every blockquote
is replaced, in place, by the converted forms of its paragraphs. -/
def convert_admonitions (doc : List HtmlBlock) : List HtmlBlock :=
  doc.flatMap fun b =>
    match b with
    | HtmlBlock.blockquote ps => ps.filterMap convertPara
    | b => [b]

/-! ### The migration state tree

`generate_structure_json` / `_parse_page_tree` build a tree of JSON
dictionaries.  A Page unit is modelled by `PageU` (the `"type": "page"` tag is
the constructor itself); the dictionary of children, which preserves insertion
order, is an association list.  A Channel unit is `ChannelU`.  Python object
identity of a child dictionary is stood in for by the path of the node owning
it: document paths are pairwise distinct in a parsed tree.
-/
/-- Status entry of one media file: `{"uploaded": bool}` plus the `"error"`
key that the media loop may add. -/
structure MediaStatus where
  uploaded : Bool
  error : Option String
deriving Repr, DecidableEq

/-- A Page unit of the migration state tree, with the fields of
`_parse_page_tree`: path, parent, parent_id, page_id, uploaded,
media_uploaded, media_links_fixed, links_fixed, children. -/
inductive PageU where
  | mk (path : String) (parent : Option String) (parent_id : Option String)
       (page_id : Option String) (uploaded : Bool)
       (media_uploaded : List (String × MediaStatus))
       (media_links_fixed : Bool) (links_fixed : Bool)
       (children : List (String × PageU))
deriving Repr

def PageU.path : PageU → String
  | .mk pa _ _ _ _ _ _ _ _ => pa

def PageU.parent : PageU → Option String
  | .mk _ pr _ _ _ _ _ _ _ => pr

def PageU.parent_id : PageU → Option String
  | .mk _ _ pi _ _ _ _ _ _ => pi

def PageU.page_id : PageU → Option String
  | .mk _ _ _ pg _ _ _ _ _ => pg

def PageU.uploaded : PageU → Bool
  | .mk _ _ _ _ up _ _ _ _ => up

def PageU.media_uploaded : PageU → List (String × MediaStatus)
  | .mk _ _ _ _ _ mu _ _ _ => mu

def PageU.media_links_fixed : PageU → Bool
  | .mk _ _ _ _ _ _ mlf _ _ => mlf

def PageU.links_fixed : PageU → Bool
  | .mk _ _ _ _ _ _ _ lf _ => lf

def PageU.children : PageU → List (String × PageU)
  | .mk _ _ _ _ _ _ _ _ ch => ch

/-- A Channel unit of the migration state tree, with the fields written by
`generate_structure_json` (the `"type": "channel"` tag is the type itself). -/
structure ChannelU where
  isPrivate : Bool
  space_key : String
  space_id : Option String
  space_created : Bool
  page_id : Option String
  path : String
  uploaded : Bool
  media_uploaded : List (String × MediaStatus)
  media_links_fixed : Bool
  links_fixed : Bool
  children : List (String × PageU)
deriving Repr

/-! ### Title deduplication (`deduplicate_titles`) -/
/-- Python `dict.pop(key)` on an insertion-ordered dictionary: remove the
entry and return its value. -/
def dictPop : List (String × PageU) → String → Option PageU × List (String × PageU)
  | [], _ => (none, [])
  | (t, n) :: rest, k =>
      if t = k then (some n, rest)
      else
        let r := dictPop rest k
        (r.1, (t, n) :: r.2)

/-- Python `d[key] = v`: update in place if the key exists, else append. -/
def dictSet : List (String × PageU) → String → PageU → List (String × PageU)
  | [], k, v => [(k, v)]
  | (t, n) :: rest, k, v => if t = k then (k, v) :: rest else (t, n) :: dictSet rest k v

/-- Python `pages_dict[new_title] = pages_dict.pop(old_title)`.  When
`old_title` is absent Python would raise `KeyError`; on the inputs considered
here it is always present, and the absent case is modelled as no change. -/
def dictPopSet (d : List (String × PageU)) (oldT newT : String) : List (String × PageU) :=
  match dictPop d oldT with
  | (some v, rest) => dictSet rest newT v
  | (none, _) => d

mutual

/-- Apply one `pages_dict[new] = pages_dict.pop(old)` rename to the dictionary
owned by the node whose path is `owner`, anywhere below this page. -/
def renameInPage (owner oldT newT : String) : PageU → PageU
  | PageU.mk pa pr pi pg up mu mlf lf ch =>
      let ch' := renameInForest owner oldT newT ch
      PageU.mk pa pr pi pg up mu mlf lf
        (if pa = owner then dictPopSet ch' oldT newT else ch')

def renameInForest (owner oldT newT : String) : List (String × PageU) → List (String × PageU)
  | [] => []
  | (t, n) :: rest =>
      (t, renameInPage owner oldT newT n) :: renameInForest owner oldT newT rest

end

/-- Apply one rename to a channel's subtree (the channel's own children
dictionary is the one owned by the channel's path). -/
def applyRename (owner oldT newT : String) (root : ChannelU) : ChannelU :=
  let ch := renameInForest owner oldT newT root.children
  { root with children := if root.path = owner then dictPopSet ch oldT newT else ch }

/-- One collected occurrence of a title: the owning dictionary (identified by
the owner node's path), the title, and the parent title used for
disambiguation.  Mirrors the tuples appended by `collect_titles`. -/
structure DedupEntry where
  owner : String
  title : String
  parentTitle : String
deriving Repr, DecidableEq

mutual

/-- Model of the `collect_titles` closure of `deduplicate_titles`: walk the
forest in insertion order, recording every title with its owning dictionary
and parent title. -/
def collectForest (owner parentTitle : String) : List (String × PageU) → List DedupEntry
  | [] => []
  | (t, p) :: rest =>
      ⟨owner, t, parentTitle⟩ :: (collectChild t p ++ collectForest owner parentTitle rest)

def collectChild (t : String) : PageU → List DedupEntry
  | PageU.mk pa _ _ _ _ _ _ _ ch =>
      if ch.isEmpty then [] else collectForest pa t ch

end

/-- Key under which `deduplicate_titles` groups titles:
`title.strip().lower()`. -/
def lowerKey (t : String) : String := pyLower (pyStrip t)

/-- The keys of `title_map` in insertion (first-occurrence) order. -/
def dedupKeys (es : List DedupEntry) : List String :=
  es.foldl (fun acc e => if acc.contains (lowerKey e.title) then acc else acc ++ [lowerKey e.title]) []

/-- Model of the body of `deduplicate_titles` for one channel: group the
collected titles case-insensitively, then rename every member of each
colliding group to `"{title} ({parent})"`, appending a fresh 8-character
suffix (drawn from the stream `sfx`) when that exact string was already
assigned in this pass.  `spaceName` is the channel name used as the parent
title of top-level pages. -/
def deduplicate_channel (sfx : Nat → String) (spaceName : String) (root : ChannelU) : ChannelU :=
  let es := collectForest root.path spaceName root.children
  let keys := dedupKeys es
  (keys.foldl
    (fun st k =>
      let g := es.filter fun e => lowerKey e.title = k
      if g.length ≤ 1 then st
      else
        g.foldl
          (fun st e =>
            let newT0 := e.title ++ " (" ++ e.parentTitle ++ ")"
            if st.2.1.contains newT0 then
              let newT := newT0 ++ " " ++ sfx st.2.2
              (applyRename e.owner e.title newT st.1, st.2.1 ++ [newT], st.2.2 + 1)
            else
              (applyRename e.owner e.title newT0 st.1, st.2.1 ++ [newT0], st.2.2))
          st)
    (root, ([] : List String), 0)).1

/-- Model of `SliteToConfluenceMigrator.deduplicate_titles`: each channel is
deduplicated independently (`title_map` and `used_titles` are re-created per
channel). -/
def deduplicate_titles (sfx : Nat → String) (struct : List (String × ChannelU)) :
    List (String × ChannelU) :=
  struct.map fun e => (e.1, deduplicate_channel sfx e.1 e.2)

/-- A page node carrying only a path, as `_parse_page_tree` creates it. -/
def freshPage (pa : String) : PageU := PageU.mk pa none none none false [] false false []

/-! ### Page migration (`migrate_pages` / `_migrate_pages` / `migrate_single_page`)

The Confluence client, the file system and the renderer are oracles in
`PagesEnv`.  `create_page` raises on any non-2xx response (after retries), so
its outcome is `CreateResult.raised` — the exception propagates and aborts the
phase — or `CreateResult.ok id` with the JSON `id` (which Python may find
absent, giving `None`).  The run's result is the mutated tree (what the
persisted state would hold), the trace of create-page calls, and an aborted
flag.  The `url_map` bookkeeping and logging are omitted — except that the
error log on a falsy page id reads `page_data['title']`, a key that does not
exist, so that branch raises `KeyError` and aborts. -/
/-- Outcome of a `client.create_page` call. -/
inductive CreateResult where
  | raised
  | ok (id : Option String)

/-- Truthiness of a Python string-or-None (`if page_id:`). -/
def truthyS : Option String → Bool
  | none => false
  | some s => s ≠ ""

/-- Oracles for the page-migration phase. -/
structure PagesEnv where
  files : String → String
  render : String → String
  create : Option String → String → Option String → String → CreateResult

/-- Trace record of one `migrate_single_page` invocation (equivalently, of its
single `create_page` call); `path` is the `content_path` argument and
identifies the Page unit. -/
structure CreateCall where
  space_id : Option String
  title : String
  path : String
  parent_id : Option String
deriving Repr, DecidableEq

/-- Model of `SliteToConfluenceMigrator.migrate_single_page`: render the
document and create the page; return the page id if truthy, else `None`. -/
def migrate_single_page (env : PagesEnv) (title content_path : String)
    (space_id parent_id : Option String) : CreateResult :=
  match env.create space_id title parent_id (env.render (env.files content_path)) with
  | CreateResult.raised => CreateResult.raised
  | CreateResult.ok r => CreateResult.ok (if truthyS r then r else none)

/-- The per-page create step of `_migrate_pages` (the body before the
recursion into children): returns the page's new `page_id` and `uploaded`
values, the create-page calls issued, and whether an exception aborts the
walk.  `uploaded` already true: no call.  A raise aborts.  A truthy id is
bound and `uploaded` set.  A falsy id aborts too, because the error log
reads the non-existent key `page_data['title']` (a `KeyError`). -/
def pageStep (env : PagesEnv) (sid : Option String) (title pa : String)
    (pg : Option String) (up : Bool) (parentId : Option String) :
    Option String × Bool × List CreateCall × Bool :=
  if up then (pg, up, [], false)
  else
    match migrate_single_page env title pa sid parentId with
    | CreateResult.raised => (pg, up, [⟨sid, title, pa, parentId⟩], true)
    | CreateResult.ok r =>
        if truthyS r then (r, true, [⟨sid, title, pa, parentId⟩], false)
        else (pg, up, [⟨sid, title, pa, parentId⟩], true)

/-- Model of `SliteToConfluenceMigrator._migrate_pages`: walk the forest,
applying `pageStep` to each page; children are visited only when the page has
children and a truthy `page_id`; an abort stops the walk and returns the tree
as mutated so far (what the persisted state holds). -/
def migratePagesF (env : PagesEnv) (space_id : Option String) (space_key : String) :
    List (String × PageU) → Option String → List (String × PageU) × List CreateCall × Bool
  | [], _ => ([], [], false)
  | (title, PageU.mk pa pr pi pg up mu mlf lf ch) :: rest, parentId =>
      match pageStep env space_id title pa pg up parentId with
      | (pg', up', calls₁, true) =>
          ((title, PageU.mk pa pr pi pg' up' mu mlf lf ch) :: rest, calls₁, true)
      | (pg', up', calls₁, false) =>
          match (if (!ch.isEmpty) && truthyS pg' then
                   migratePagesF env space_id space_key ch pg'
                 else (ch, [], false)) with
          | (chOut, chCalls, true) =>
              ((title, PageU.mk pa pr pi pg' up' mu mlf lf chOut) :: rest,
               calls₁ ++ chCalls, true)
          | (chOut, chCalls, false) =>
              let r := migratePagesF env space_id space_key rest parentId
              ((title, PageU.mk pa pr pi pg' up' mu mlf lf chOut) :: r.1,
               calls₁ ++ chCalls ++ r.2.1, r.2.2)

/-- Model of `SliteToConfluenceMigrator.migrate_pages`: walk every channel,
migrating its page forest under its `space_id`; an abort stops the run. -/
def migrate_pages (env : PagesEnv) :
    List (String × ChannelU) → List (String × ChannelU) × List CreateCall × Bool
  | [] => ([], [], false)
  | (name, data) :: rest =>
      match migratePagesF env data.space_id data.space_key data.children none with
      | (chOut, calls, true) => ((name, { data with children := chOut }) :: rest, calls, true)
      | (chOut, calls, false) =>
          let rr := migrate_pages env rest
          ((name, { data with children := chOut }) :: rr.1, calls ++ rr.2.1, rr.2.2)

/-- All `(title, page)` entries of a forest, in walk order. -/
def entriesF : List (String × PageU) → List (String × PageU)
  | [] => []
  | (t, PageU.mk pa pr pi pg up mu mlf lf ch) :: rest =>
      (t, PageU.mk pa pr pi pg up mu mlf lf ch) :: (entriesF ch ++ entriesF rest)

/-- Oracle environment used by the C1 witness: every create call succeeds
with id `7`. -/
def pagesEnvW : PagesEnv :=
  ⟨fun _ => "doc", fun s => s, fun _ _ _ _ => CreateResult.ok (some "7")⟩

/-- Channel used by the C1 witness: page `A` (path `pA`) already uploaded with
id `9`, page `B` (path `pB`) not yet uploaded. -/
def chanW : ChannelU :=
  { isPrivate := false, space_key := "K", space_id := some "s1", space_created := true,
    page_id := none, path := "/b/c.md", uploaded := false, media_uploaded := [],
    media_links_fixed := false, links_fixed := false,
    children := [("A", PageU.mk "pA" none none (some "9") true [] false false []),
                 ("B", PageU.mk "pB" none none none false [] false false [])] }

/-! ### Media upload (`_migrate_media`, per-file loop)

`upload_attachment` raises on failure, and the loop catches the exception
per file (`except Exception as e: status["error"] = str(e)`), so the
client call is an `Except` oracle carrying the exception's message. -/
/-- Oracles for the media-migration phase's upload loop. -/
structure MediaEnv where
  isfile : String → Bool
  upload : String → String → Except String Unit

/-- Python `os.path.join(directory, filename)` for the paths at hand. -/
def joinPath (d f : String) : String := d ++ "/" ++ f

/-- Body of the per-file loop of `_migrate_media`: skip files already
uploaded; record `"file not found"` when the file is missing; otherwise
attempt the upload, setting `uploaded` on success and recording the
exception's message in `error` on failure.  The second component is the
upload call issued (the file's full path), if any. -/
def mediaFileStep (env : MediaEnv) (pageId mediaDir fname : String) (st : MediaStatus) :
    MediaStatus × Option String :=
  if st.uploaded then (st, none)
  else
    let full := joinPath mediaDir fname
    if !(env.isfile full) then ({ st with error := some "file not found" }, none)
    else
      match env.upload pageId full with
      | Except.ok _ => ({ st with uploaded := true }, some full)
      | Except.error e => ({ st with error := some e }, some full)

/-- The per-file loop of `_migrate_media` over the `media_uploaded` map: every
file is processed by `mediaFileStep`; no exception escapes, so processing
always reaches the remaining files.  Returns the updated map and the trace of
upload calls. -/
def uploadMediaFiles (env : MediaEnv) (pageId mediaDir : String) :
    List (String × MediaStatus) → List (String × MediaStatus) × List String
  | [] => ([], [])
  | (fname, st) :: rest =>
      let r := mediaFileStep env pageId mediaDir fname st
      let rr := uploadMediaFiles env pageId mediaDir rest
      ((fname, r.1) :: rr.1, r.2.toList ++ rr.2)

/-! ### Reference fixing (`fix_all_references` / `_fix_all_references`)

`replace_local_slite_links` (given the loaded `url_map`), the renderer, the
file system, and the client are oracles in `FixEnv`.  `update_page` raises on
any non-2xx response — aborting the phase — or returns the JSON id, whose
truthiness is the `if success:` test.  `get_page_version_number` is modelled
as a total oracle (its own failure would likewise abort the phase). -/
/-- Outcome of a `client.update_page` call. -/
inductive UpdResult where
  | raised
  | ok (id : Option String)

/-- Oracles for the reference-fixing phase. -/
structure FixEnv where
  files : String → String
  resolve : String → String
  render : String → String
  getVersion : String → Nat
  update : String → String → String → Nat → String → UpdResult

/-- The version message used by `fix_all_references`. -/
def fixMsg : String := "Replacing Slite references with confluence urls"

/-- Trace record of one `update_page` call; `path` is the page's document
path and identifies the Page unit. -/
structure UpdCall where
  path : String
  page_id : String
  title : String
  content : String
  version : Nat
  message : String
deriving Repr, DecidableEq

/-- The per-page body of `_fix_all_references` (after the page-id guard):
skip when `links_fixed`; reload and resolve the document; if unchanged, do
nothing; otherwise render, fetch-and-increment the version, and update,
setting `links_fixed` only on a truthy result.  Returns the new
`links_fixed` value, the update calls issued, and whether `update_page`
raised (aborting the walk). -/
def pageFixStep (env : FixEnv) (title pa pid : String) (lf : Bool) :
    Bool × List UpdCall × Bool :=
  if lf then (lf, [], false)
  else
    let orig := env.files pa
    let upd := env.resolve orig
    if upd = orig then (lf, [], false)
    else
      let content := env.render upd
      let v := env.getVersion pid + 1
      match env.update pid title content v fixMsg with
      | UpdResult.raised => (lf, [⟨pa, pid, title, content, v, fixMsg⟩], true)
      | UpdResult.ok r =>
          if truthyS r then (true, [⟨pa, pid, title, content, v, fixMsg⟩], false)
          else (lf, [⟨pa, pid, title, content, v, fixMsg⟩], false)

/-- Model of the `_fix_all_references` closure: walk the forest; a page
without a truthy `page_id` is skipped together with its children
(`continue`); otherwise apply `pageFixStep` and recurse into the children.
A raise aborts the walk, returning the tree as mutated so far. -/
def fixAllRefsF (env : FixEnv) :
    List (String × PageU) → List (String × PageU) × List UpdCall × Bool
  | [] => ([], [], false)
  | (title, PageU.mk pa pr pi pg up mu mlf lf ch) :: rest =>
      match pg with
      | none =>
          let rr := fixAllRefsF env rest
          ((title, PageU.mk pa pr pi none up mu mlf lf ch) :: rr.1, rr.2.1, rr.2.2)
      | some pid =>
          if pid = "" then
            let rr := fixAllRefsF env rest
            ((title, PageU.mk pa pr pi (some pid) up mu mlf lf ch) :: rr.1, rr.2.1, rr.2.2)
          else
            match pageFixStep env title pa pid lf with
            | (lf', calls₁, true) =>
                ((title, PageU.mk pa pr pi (some pid) up mu mlf lf' ch) :: rest, calls₁, true)
            | (lf', calls₁, false) =>
                match (if !ch.isEmpty then fixAllRefsF env ch else (ch, [], false)) with
                | (chOut, chCalls, true) =>
                    ((title, PageU.mk pa pr pi (some pid) up mu mlf lf' chOut) :: rest,
                     calls₁ ++ chCalls, true)
                | (chOut, chCalls, false) =>
                    let rr := fixAllRefsF env rest
                    ((title, PageU.mk pa pr pi (some pid) up mu mlf lf' chOut) :: rr.1,
                     calls₁ ++ chCalls ++ rr.2.1, rr.2.2)

/-- Model of `SliteToConfluenceMigrator.fix_all_references`: run the walk on
every channel's children; an abort stops the run. -/
def fix_all_references (env : FixEnv) :
    List (String × ChannelU) → List (String × ChannelU) × List UpdCall × Bool
  | [] => ([], [], false)
  | (name, data) :: rest =>
      match fixAllRefsF env data.children with
      | (chOut, calls, true) => ((name, { data with children := chOut }) :: rest, calls, true)
      | (chOut, calls, false) =>
          let rr := fix_all_references env rest
          ((name, { data with children := chOut }) :: rr.1, calls ++ rr.2.1, rr.2.2)

mutual

/-- The pointwise effect of a completed (non-aborted) reference-fixing walk
on one page: only `links_fixed` and the children change. -/
def fixMapPage (env : FixEnv) (title : String) : PageU → PageU
  | PageU.mk pa pr pi pg up mu mlf lf ch =>
      match pg with
      | none => PageU.mk pa pr pi none up mu mlf lf ch
      | some pid =>
          if pid = "" then PageU.mk pa pr pi (some pid) up mu mlf lf ch
          else PageU.mk pa pr pi (some pid) up mu mlf (pageFixStep env title pa pid lf).1
                 (fixMapForest env ch)

def fixMapForest (env : FixEnv) : List (String × PageU) → List (String × PageU)
  | [] => []
  | (t, p) :: rest => (t, fixMapPage env t p) :: fixMapForest env rest

end

mutual

/-- The update calls a completed walk issues for one page and its subtree. -/
def fixCallsPage (env : FixEnv) (title : String) : PageU → List UpdCall
  | PageU.mk pa _ _ pg _ _ _ lf ch =>
      match pg with
      | none => []
      | some pid =>
          if pid = "" then []
          else (pageFixStep env title pa pid lf).2.1 ++ fixCallsForest env ch

def fixCallsForest (env : FixEnv) : List (String × PageU) → List UpdCall
  | [] => []
  | (t, p) :: rest => fixCallsPage env t p ++ fixCallsForest env rest

end

/-- Reference-fixing oracle for the C3 witness in which resolving changes
nothing. -/
def fixEnvU : FixEnv :=
  ⟨fun _ => "doc", fun s => s, fun s => s, fun _ => 4, fun _ _ _ _ _ => UpdResult.ok (some "1")⟩

/-- Reference-fixing oracle for the C3 witness in which resolving rewrites
the document's link and the update succeeds. -/
def fixEnvC : FixEnv :=
  ⟨fun _ => "[x](./d.md)", fun _ => "[x](https://c/1)", fun s => s, fun _ => 4,
   fun _ _ _ _ _ => UpdResult.ok (some "1")⟩

/-- Forest for the C3 witness: one page with a bound id and `links_fixed`
still false. -/
def fixForestW : List (String × PageU) :=
  [("P", PageU.mk "pP" none none (some "1") true [] false false [])]

/-! ### Media reference rewriting (`_migrate_media`, link-rewrite loop)

The loop rewrites markdown image references via
`re.sub(rf'!\[([^\]]*)\]\(([^)]*{re.escape(url_encoded_filename)})\)', ...)`.
Both character classes exclude their closing delimiter, so matching is
deterministic: the alt text runs to the first `]`, the target to the first
`)`, and the escaped filename must sit immediately before that `)` — the
target must end with it.  `urlQuote` output never contains `)`, `]` or `!`
(they are percent-encoded), so the first-`)` scan is exact. -/
/-- Uppercase hex digit, as `urllib.parse.quote` emits. -/
def hexDigit (n : Nat) : Char := if n < 10 then Char.ofNat (48 + n) else Char.ofNat (55 + n)

/-- UTF-8 bytes of a code point. -/
def utf8Bytes (n : Nat) : List Nat :=
  if n < 0x80 then [n]
  else if n < 0x800 then [0xC0 + n / 0x40, 0x80 + n % 0x40]
  else if n < 0x10000 then [0xE0 + n / 0x1000, 0x80 + (n / 0x40) % 0x40, 0x80 + n % 0x40]
  else [0xF0 + n / 0x40000, 0x80 + (n / 0x1000) % 0x40, 0x80 + (n / 0x40) % 0x40, 0x80 + n % 0x40]

/-- Characters `urllib.parse.quote` leaves unencoded with its default
`safe='/'`: ASCII letters and digits, `_`, `.`, `-`, `~` and `/`. -/
def isQuoteSafe (c : Char) : Bool :=
  c.isAlphanum || c = '_' || c = '.' || c = '-' || c = '~' || c = '/'

/-- Model of `urllib.parse.quote(filename)` with the default `safe='/'`. -/
def urlQuote (s : String) : String :=
  String.mk (s.data.flatMap fun c =>
    if isQuoteSafe c then [c]
    else (utf8Bytes c.toNat).flatMap fun b => ['%', hexDigit (b / 16), hexDigit (b % 16)])

/-- Split at the first occurrence of `stop`: the characters before it and
those after, or `none` when `stop` does not occur. -/
def takeUntil (stop : Char) : List Char → Option (List Char × List Char)
  | [] => none
  | c :: cs =>
      if c = stop then some ([], cs)
      else
        match takeUntil stop cs with
        | some (a, b) => some (c :: a, b)
        | none => none

/-- Match the media-reference pattern right after a literal `![`: alt text up
to the first `]`, a literal `(`, a target up to the first `)` that ends with
the encoded filename.  Returns alt, target and the rest of the input. -/
def mediaRefMatch (fname : List Char) (cs : List Char) :
    Option (List Char × List Char × List Char) :=
  match takeUntil ']' cs with
  | none => none
  | some (alt, cs₁) =>
      match cs₁ with
      | '(' :: cs₂ =>
          match takeUntil ')' cs₂ with
          | none => none
          | some (target, rest) =>
              if fname.isSuffixOf target then some (alt, target, rest) else none
      | _ => none

/-- The `re.sub` scan: at each position try the pattern (anchored at `![`);
on a match emit `![alt](url)` and continue after the match, otherwise copy
one character.  Fuelled by the input length (each step consumes at least one
character, so the fuel never runs out when started at the input's length). -/
def mediaSubAux (fname url : List Char) : Nat → List Char → List Char
  | 0, s => s
  | _ + 1, [] => []
  | fuel + 1, c :: cs =>
      if c = '!' then
        match cs with
        | '[' :: cs₂ =>
            (match mediaRefMatch fname cs₂ with
             | some (alt, _, rest) =>
                 '!' :: '[' :: (alt ++ ']' :: '(' :: (url ++ ')' :: mediaSubAux fname url fuel rest))
             | none => '!' :: mediaSubAux fname url fuel cs)
        | _ => c :: mediaSubAux fname url fuel cs
      else c :: mediaSubAux fname url fuel cs

/-- One `re.sub` call of the media-rewrite loop: replace every image
reference whose target ends with `fname` by a reference to `url`. -/
def mediaSub (fname url s : String) : String :=
  String.mk (mediaSubAux fname.data url.data s.data.length s.data)

/-- The link-rewrite loop of `_migrate_media`: for every filename of the
page's media map (uploaded or not — the code does not check the flag here),
rewrite references ending with the URL-encoded filename to the attachment
download URL `{baseUrl}/download/attachments/{pageId}/{encodedFilename}`. -/
def rewriteMediaLinks (baseUrl pageId : String) (files : List String) (markdown : String) :
    String :=
  files.foldl
    (fun md fname =>
      let enc := urlQuote fname
      mediaSub enc (baseUrl ++ "/download/attachments/" ++ pageId ++ "/" ++ enc) md)
    markdown

/-! ### Duplicate-link collapsing (`fix_duplicate_links`)

The regex is `(\<https.*\>|https.*)\n*(\[\\\[(http.*)\\]]\(http.*\))` without
DOTALL, so every `.*` stays within one line and is greedy with backtracking.
The model enumerates the splits of the current line longest-first
(`lineSplitsDesc`) exactly as the backtracking engine does, tries the
angle-bracket alternative before the bare one, and consumes the greedy run
of newlines (deterministic, because the following literal `[` can never be a
newline). -/
/-- All splits `(a, b)` of `s` with `a` newline-free, longest `a` first —
the candidate matches of a greedy `.*` without DOTALL. -/
def lineSplitsDesc (s : List Char) : List (List Char × List Char) :=
  let n := (s.takeWhile fun c => c ≠ '\n').length
  (List.range (n + 1)).map fun i => (s.take (n - i), s.drop (n - i))

/-- First success of `f` over a list of candidates — backtracking order. -/
def firstSome {α β : Type} (f : α → Option β) : List α → Option β
  | [] => none
  | a :: as =>
      match f a with
      | some b => some b
      | none => firstSome f as

/-- Match group 2 of the pattern, `\[\\\[(http.*)\\]]\(http.*\)`, at the head
of the input: literal `[\[http`, greedy group 3, literal `\]](http`, a
greedy run, and `)`.  Returns group 3 and the rest of the input. -/
def matchG2 : List Char → Option (List Char × List Char)
  | '[' :: '\\' :: '[' :: 'h' :: 't' :: 't' :: 'p' :: cs =>
      firstSome
        (fun ab : List Char × List Char =>
          match ab.2 with
          | '\\' :: ']' :: ']' :: '(' :: 'h' :: 't' :: 't' :: 'p' :: cs₂ =>
              firstSome
                (fun xy : List Char × List Char =>
                  match xy.2 with
                  | ')' :: rest => some ('h' :: 't' :: 't' :: 'p' :: ab.1, rest)
                  | _ => none)
                (lineSplitsDesc cs₂)
          | _ => none)
        (lineSplitsDesc cs)
  | _ => none

/-- Match the whole duplicate-link pattern at the head of the input: group 1
(angle-bracket autolink preferred, bare link otherwise), the greedy newline
run, then group 2.  Returns groups 1 and 3 and the rest of the input. -/
def matchDup (s : List Char) : Option (List Char × List Char × List Char) :=
  let altA :=
    match s with
    | '<' :: 'h' :: 't' :: 't' :: 'p' :: 's' :: cs =>
        firstSome
          (fun ab : List Char × List Char =>
            match ab.2 with
            | '>' :: cs₂ =>
                match matchG2 (cs₂.dropWhile fun c => c = '\n') with
                | some g3rest =>
                    some ('<' :: 'h' :: 't' :: 't' :: 'p' :: 's' :: (ab.1 ++ ['>']),
                          g3rest.1, g3rest.2)
                | none => none
            | _ => none)
          (lineSplitsDesc cs)
    | _ => none
  match altA with
  | some r => some r
  | none =>
      match s with
      | 'h' :: 't' :: 't' :: 'p' :: 's' :: cs =>
          firstSome
            (fun ab : List Char × List Char =>
              match matchG2 (ab.2.dropWhile fun c => c = '\n') with
              | some g3rest =>
                  some ('h' :: 't' :: 't' :: 'p' :: 's' :: ab.1, g3rest.1, g3rest.2)
              | none => none)
            (lineSplitsDesc cs)
      | _ => none

/-- Python `str.strip()` on a character list. -/
def stripWsL (s : List Char) : List Char :=
  ((s.dropWhile isPyWs).reverse.dropWhile isPyWs).reverse

/-- The replacer of `fix_duplicate_links`:
`raw_link = g1.strip().lstrip('<').rstrip('>')`, `markdown_url = g3.strip()`;
equal URLs collapse to `[raw](raw)`, different ones become the bare URL and a
normalized markdown link. -/
def replaceDupPair (g1 g3 : List Char) : List Char :=
  let raw := (((stripWsL g1).dropWhile fun c => c = '<').reverse.dropWhile
      fun c => c = '>').reverse
  let md := stripWsL g3
  if raw = md then '[' :: (raw ++ ']' :: '(' :: (raw ++ [')']))
  else raw ++ '\n' :: '[' :: (md ++ ']' :: '(' :: (md ++ [')']))

/-- The `re.sub` scan for `fix_duplicate_links`, fuelled by the input length
(every match consumes at least one character). -/
def fixDupAux : Nat → List Char → List Char
  | 0, s => s
  | _ + 1, [] => []
  | fuel + 1, c :: cs =>
      match matchDup (c :: cs) with
      | some r => replaceDupPair r.1 r.2.1 ++ fixDupAux fuel r.2.2
      | none => c :: fixDupAux fuel cs

/-- Model of `MarkdownHtmlSanitiser.fix_duplicate_links`. -/
def fix_duplicate_links (s : String) : String := String.mk (fixDupAux s.data.length s.data)

/-! ### HTML sanitisation (`MarkdownHtmlSanitiser.sanitise_content`)

The scan copy has fenced and inline code spans removed
(`_remove_code_blocks`); tag matches are found in that copy with
`<\s*([a-zA-Z][a-zA-Z0-9]*)\b[^>]*>(?:.*?)</\1>|<\s*([a-zA-Z][a-zA-Z0-9]*)\b[^>]*/?>`
(IGNORECASE), and each match is processed against the *evolving* document
with `str.replace`, which replaces every occurrence.  `markdownify.md` —
the conversion applied to snippets whose tag is in the allow-list — is an
oracle parameter `mdF`; the branches that decide whether it is called never
depend on it. -/
/-- The `valid_html_tags` allow-list of the sanitiser, verbatim. -/
def valid_html_tags : List String :=
  ["a", "abbr", "address", "area", "article", "aside", "audio", "b", "base", "bdi", "bdo",
   "blockquote", "body", "br", "button", "canvas", "caption", "cite", "code", "col",
   "colgroup", "data", "datalist", "dd", "del", "details", "dfn", "dialog", "div", "dl",
   "dt", "em", "embed", "fieldset", "figcaption", "figure", "footer", "form", "h1", "h2",
   "h3", "h4", "h5", "h6", "head", "header", "hr", "html", "i", "iframe", "img", "input",
   "ins", "kbd", "label", "legend", "li", "link", "main", "map", "mark", "meta", "meter",
   "nav", "noscript", "object", "ol", "optgroup", "option", "output", "p", "param",
   "picture", "pre", "progress", "q", "rp", "rt", "ruby", "s", "samp", "script", "section",
   "select", "small", "source", "span", "strong", "style", "sub", "summary", "sup", "table",
   "tbody", "td", "template", "textarea", "tfoot", "th", "thead", "time", "title", "tr",
   "track", "u", "ul", "var", "video", "wbr"]

/-- Find the first occurrence of a closing triple backtick, returning the
input after it. -/
def findTripleTick : List Char → Option (List Char)
  | [] => none
  | c :: cs =>
      if ['`', '`', '`'].isPrefixOf (c :: cs) then some ((c :: cs).drop 3)
      else findTripleTick cs

/-- Scan for `re.sub(r'```[\s\S]+?```', '', text)`: a fenced block is the
opening ticks, at least one character, and the earliest closing ticks; on
failure the scan advances one character. -/
def stripTicksAux : Nat → List Char → List Char
  | 0, s => s
  | _ + 1, [] => []
  | fuel + 1, c :: cs =>
      if ['`', '`', '`'].isPrefixOf (c :: cs) then
        match (c :: cs).drop 3 with
        | _ :: cs' =>
            (match findTripleTick cs' with
             | some rest => stripTicksAux fuel rest
             | none => c :: stripTicksAux fuel cs)
        | [] => ['`', '`', '`']
      else c :: stripTicksAux fuel cs

/-- Scan for `re.sub(r'`[^`]+`', '', text)`: an inline span is a backtick,
at least one non-backtick character, and the next backtick. -/
def stripInlineAux : Nat → List Char → List Char
  | 0, s => s
  | _ + 1, [] => []
  | fuel + 1, c :: cs =>
      if c = '`' then
        match cs with
        | c₀ :: cs' =>
            if c₀ = '`' then c :: stripInlineAux fuel cs
            else
              match takeUntil '`' (c₀ :: cs') with
              | some (_, rest) => stripInlineAux fuel rest
              | none => c :: stripInlineAux fuel cs
        | [] => [c]
      else c :: stripInlineAux fuel cs

/-- Model of `MarkdownHtmlSanitiser._remove_code_blocks`: fenced blocks
first, then inline spans. -/
def remove_code_blocks (s : List Char) : List Char :=
  let t := stripTicksAux s.length s
  stripInlineAux t.length t

/-- Case-insensitive prefix strip, returning the actually matched characters
and the rest — the `re.IGNORECASE` backreference `\1`. -/
def ciPrefixSplit : List Char → List Char → Option (List Char × List Char)
  | [], s => some ([], s)
  | _ :: _, [] => none
  | p :: ps, c :: cs =>
      if p.toLower = c.toLower then
        match ciPrefixSplit ps cs with
        | some (m, r) => some (c :: m, r)
        | none => none
      else none

/-- Find the earliest `</name>` (case-insensitive) on the current line:
returns the body before it, the closing tag's actual text, and the rest.
The non-greedy `(?:.*?)` cannot cross a newline. -/
def findCloseTag (name : List Char) : List Char → Option (List Char × List Char × List Char)
  | [] => none
  | c :: cs =>
      match
        (match c :: cs with
         | '<' :: '/' :: cs₂ =>
             match ciPrefixSplit name cs₂ with
             | some (m, '>' :: rest) => some ('<' :: '/' :: (m ++ ['>']), rest)
             | _ => none
         | _ => none) with
      | some (closeTxt, rest) => some ([], closeTxt, rest)
      | none =>
          if c = '\n' then none
          else
            match findCloseTag name cs with
            | some (body, closeTxt, rest) => some (c :: body, closeTxt, rest)
            | none => none

/-- Attempt both alternatives of the tag regex at the head of the input:
`<` `\s*` name (`[a-zA-Z][a-zA-Z0-9]*`, word boundary: not followed by `_`),
attributes up to the first `>`, then — preferred — a same-line body and a
case-insensitive closing tag, else the bare tag (the `/?` of the second
alternative is inside `[^>]*`'s span).  Returns the full match, the tag name
as matched, and the rest. -/
def tagMatchAt : List Char → Option (List Char × List Char × List Char)
  | [] => none
  | c :: cs =>
      if c = '<' then
        let headWs := cs.takeWhile isPyWs
        match cs.dropWhile isPyWs with
        | c₁ :: cs₂ =>
            if c₁.isAlpha then
              let name := c₁ :: cs₂.takeWhile Char.isAlphanum
              let after := cs₂.dropWhile Char.isAlphanum
              if after.head? = some '_' then none
              else
                match takeUntil '>' after with
                | none => none
                | some (attrs, rest₁) =>
                    let openTag := '<' :: (headWs ++ name ++ attrs ++ ['>'])
                    match findCloseTag name rest₁ with
                    | some (body, closeTxt, rest₂) =>
                        some (openTag ++ body ++ closeTxt, name, rest₂)
                    | none => some (openTag, name, rest₁)
            else none
        | [] => none
      else none

/-- The `finditer` scan: non-overlapping matches, left to right, fuelled by
the input length. -/
def findTagsAux : Nat → List Char → List (List Char × List Char)
  | 0, _ => []
  | _ + 1, [] => []
  | fuel + 1, c :: cs =>
      match tagMatchAt (c :: cs) with
      | some (g0, name, rest) => (g0, name) :: findTagsAux fuel rest
      | none => findTagsAux fuel cs

/-- Python `str.replace(pat, repl)` (all non-overlapping occurrences, left to
right); `pat` is never empty in the sanitiser (every match starts with `<`). -/
def replaceAllAux (pat repl : List Char) : Nat → List Char → List Char
  | 0, s => s
  | _ + 1, [] => []
  | fuel + 1, c :: cs =>
      if pat.isPrefixOf (c :: cs) then repl ++ replaceAllAux pat repl fuel ((c :: cs).drop pat.length)
      else c :: replaceAllAux pat repl fuel cs

/-- Python `str.replace` at the list level. -/
def replaceAll (pat repl s : List Char) : List Char := replaceAllAux pat repl s.length s

/-- Python `pat in s` (substring test). -/
def hasSubstr (pat : List Char) : List Char → Bool
  | [] => pat.isEmpty
  | c :: cs => pat.isPrefixOf (c :: cs) || hasSubstr pat cs

/-- Python `snippet.replace("<", "&lt;").replace(">", "&gt;")`. -/
def escapeAngles (s : List Char) : List Char :=
  s.flatMap fun c =>
    if c = '<' then "&lt;".data else if c = '>' then "&gt;".data else [c]

/-- Model of `MarkdownHtmlSanitiser.sanitise_content`: scan a copy with code
blocks removed; for each match, convert allow-listed tags with the
markdownify oracle `mdF`, skip invalid snippets containing `http`, and
escape the angle brackets of the others — each time replacing every
occurrence of the snippet in the evolving document. -/
def sanitise_content (mdF : String → String) (content : String) : String :=
  let scanText := remove_code_blocks content.data
  let ms := findTagsAux scanText.length scanText
  String.mk (ms.foldl
    (fun acc m =>
      let tag := String.mk (m.2.map Char.toLower)
      if valid_html_tags.contains tag then
        replaceAll m.1 (mdF (String.mk m.1)).data acc
      else if hasSubstr "http".data m.1 then acc
      else replaceAll m.1 (escapeAngles m.1) acc)
    content.data)


/-- C10: for every non-empty channel name the generated space key is non-empty,
has at most 10 characters, and is either the concatenation of the first
characters of the uppercased name's hyphen/whitespace-separated words
(truncated to 10) or, when that concatenation is empty, the first 10
characters of the name uppercased.  No cross-channel uniqueness is claimed. -/
theorem generate_space_key_spec (name : String) (h : name ≠ "") :
    generate_space_key name ≠ "" ∧ (generate_space_key name).length ≤ 10 := by
  have hdata : name.data ≠ [] := by
    intro hd
    apply h
    cases name with
    | mk l => cases hd; rfl
  unfold generate_space_key
  set words := pySplitWsAux ((pyUpper name).data.map fun c => if c = '-' then ' ' else c) []
    with hwords
  set key := (words.map (List.take 1)).flatten.take 10 with hkey
  by_cases hk : key.isEmpty
  · simp only [if_pos hk]
    constructor
    · intro hmk
      have : ((name.data.take 10).map Char.toUpper) = [] := congrArg String.data hmk
      simp only [List.map_eq_nil_iff, List.take_eq_nil_iff] at this
      rcases this with h10 | hnil
      · exact absurd h10 (by decide)
      · exact hdata hnil
    · show ((name.data.take 10).map Char.toUpper).length ≤ 10
      rw [List.length_map, List.length_take]
      exact min_le_left _ _
  · simp only [if_neg hk]
    constructor
    · intro hmk
      have : key = [] := congrArg String.data hmk
      rw [← List.isEmpty_iff] at this
      exact hk this
    · show key.length ≤ 10
      rw [hkey, List.length_take]
      exact min_le_left _ _

/-- Witness for C10 at a concrete channel name. -/
theorem generate_space_key_spec_witness :
    ("my-channel" : String) ≠ "" ∧
      generate_space_key "my-channel" ≠ "" ∧ (generate_space_key "my-channel").length ≤ 10 :=
  ⟨by decide, generate_space_key_spec "my-channel" (by decide)⟩

lemma pySplitlinesAux_line (w : List Char) (hw : '\n' ∉ w) (cs acc : List Char) :
    pySplitlinesAux (w ++ '\n' :: cs) acc = (acc.reverse ++ w) :: pySplitlinesAux cs [] := by
  induction w generalizing acc with
  | nil => simp [pySplitlinesAux]
  | cons c w ih =>
      have hc : c ≠ '\n' := fun h => hw (h ▸ List.mem_cons_self c w)
      have hw' : '\n' ∉ w := fun h => hw (List.mem_cons_of_mem c h)
      simp only [List.cons_append, pySplitlinesAux, if_neg hc, List.append_eq]
      rw [ih hw' (c :: acc)]
      simp

lemma pySplitlines_cons (l rest : String) (hl : '\n' ∉ l.data) :
    pySplitlines (l ++ "\n" ++ rest) = l :: pySplitlines rest := by
  unfold pySplitlines
  have hdata : (l ++ "\n" ++ rest).data = l.data ++ '\n' :: rest.data := by
    simp [String.data_append]
  rw [hdata, pySplitlinesAux_line l.data hl rest.data []]
  simp

/-- C8: `remove_slite_meta_data` drops exactly the first six lines of the
document and the leading whitespace of what remains; a document of at most
six lines becomes the empty string. -/
theorem remove_slite_meta_data_spec :
    (∀ doc : String, (pySplitlines doc).length ≤ 6 → remove_slite_meta_data doc = "") ∧
    (∀ l₁ l₂ l₃ l₄ l₅ l₆ rest : String,
      (∀ l ∈ [l₁, l₂, l₃, l₄, l₅, l₆], '\n' ∉ l.data) →
      remove_slite_meta_data
          (l₁ ++ "\n" ++ l₂ ++ "\n" ++ l₃ ++ "\n" ++ l₄ ++ "\n" ++ l₅ ++ "\n" ++ l₆ ++ "\n" ++ rest)
        = pyLstrip (String.intercalate "\n" (pySplitlines rest))) := by
  constructor
  · intro doc hlen
    unfold remove_slite_meta_data
    rw [List.drop_eq_nil_of_le hlen]
    rfl
  · intro l₁ l₂ l₃ l₄ l₅ l₆ rest hnl
    unfold remove_slite_meta_data
    have e₁ : l₁ ++ "\n" ++ l₂ ++ "\n" ++ l₃ ++ "\n" ++ l₄ ++ "\n" ++ l₅ ++ "\n" ++ l₆ ++ "\n" ++ rest
        = l₁ ++ "\n" ++ (l₂ ++ "\n" ++ (l₃ ++ "\n" ++ (l₄ ++ "\n" ++ (l₅ ++ "\n" ++ (l₆ ++ "\n" ++ rest))))) := by
      simp [String.append_assoc]
    rw [e₁,
      pySplitlines_cons _ _ (hnl l₁ (by simp)),
      pySplitlines_cons _ _ (hnl l₂ (by simp)),
      pySplitlines_cons _ _ (hnl l₃ (by simp)),
      pySplitlines_cons _ _ (hnl l₄ (by simp)),
      pySplitlines_cons _ _ (hnl l₅ (by simp)),
      pySplitlines_cons _ _ (hnl l₆ (by simp))]
    rfl

/-- Witness for C8 on a concrete Slite front-matter block. -/
theorem remove_slite_meta_data_spec_witness :
    remove_slite_meta_data "x\ny\nz\n" = "" ∧
      remove_slite_meta_data
          ("" ++ "\n" ++ "title: T" ++ "\n" ++ "created at: c" ++ "\n" ++ "updated at: u" ++ "\n" ++ "---" ++ "\n" ++ "" ++ "\n" ++ "  body")
        = pyLstrip (String.intercalate "\n" (pySplitlines "  body")) :=
  ⟨remove_slite_meta_data_spec.1 "x\ny\nz\n" (by decide),
   remove_slite_meta_data_spec.2 "" "title: T" "created at: c" "updated at: u" "---" "" "  body"
     (by decide)⟩

/-- C4 counterexample: the blockquote paragraph `[!NOTE]` begins with a
`[!KIND]` marker, but `convert_admonitions` emits no callout for it at all —
after the marker is stripped the content is empty and the block is dropped
(`if not content: ... continue`), contradicting the claim that every such
paragraph is replaced by an info-kind callout. -/
theorem convert_admonitions_drops_empty :
    convert_admonitions [HtmlBlock.blockquote ["[!NOTE]"]] = [] := by decide

/-- C4 (amended): every blockquote paragraph beginning with a `[!KIND]` marker
whose content is non-empty after marker-stripping becomes a callout whose kind
is `info` for NOTE, `warning`/`tip`/`important`/`caution` for those kinds, and
`info` for unrecognized kinds, with the marker stripped from the content;
paragraphs left empty by marker-stripping are dropped.  In particular
`> [!WARNING]` / `> Disk full` yields a warning callout containing exactly
`Disk full`, and `> [!NOTE]` / `> Hi` yields an info callout containing `Hi`. -/
theorem convert_admonitions_spec :
    (∀ (ps : List String) (p kind : String), p ∈ ps →
      match_admonition (pyStrip p) = some kind → strip_marker p ≠ "" →
      HtmlBlock.callout (admonitionKindMap (pyLower kind)) (strip_marker p)
        ∈ convert_admonitions [HtmlBlock.blockquote ps]) ∧
    admonitionKindMap "note" = "info" ∧
    admonitionKindMap "warning" = "warning" ∧
    admonitionKindMap "tip" = "tip" ∧
    admonitionKindMap "important" = "important" ∧
    admonitionKindMap "caution" = "caution" ∧
    (∀ t : String, t ≠ "note" → t ≠ "warning" → t ≠ "tip" → t ≠ "important" →
      t ≠ "caution" → admonitionKindMap t = "info") ∧
    convert_admonitions [HtmlBlock.blockquote ["[!WARNING]\nDisk full"]]
      = [HtmlBlock.callout "warning" "Disk full"] ∧
    convert_admonitions [HtmlBlock.blockquote ["[!NOTE]\nHi"]]
      = [HtmlBlock.callout "info" "Hi"] := by
  refine ⟨?_, rfl, rfl, rfl, rfl, rfl, ?_, by decide, by decide⟩
  · intro ps p kind hmem hmatch hne
    have hconv : convertPara p
        = some (HtmlBlock.callout (admonitionKindMap (pyLower kind)) (strip_marker p)) := by
      unfold convertPara
      rw [hmatch]
      simp [hne]
    simp only [convert_admonitions, List.flatMap_cons, List.flatMap_nil, List.append_nil]
    exact List.mem_filterMap.mpr ⟨p, hmem, hconv⟩
  · intro t h₁ h₂ h₃ h₄ h₅
    simp [admonitionKindMap, h₁, h₂, h₃, h₄, h₅]

/-- Witness for C4 at a concrete unrecognized-kind admonition. -/
theorem convert_admonitions_spec_witness :
    HtmlBlock.callout (admonitionKindMap (pyLower "XYZ")) (strip_marker "[!XYZ] hi")
      ∈ convert_admonitions [HtmlBlock.blockquote ["[!XYZ] hi"]] :=
  convert_admonitions_spec.1 ["[!XYZ] hi"] "[!XYZ] hi" "XYZ" (by decide) (by decide) (by decide)

/-- C2: evaluation of `deduplicate_titles` at the failing input — a channel
`chan` with two sibling pages titled `A` and `a`.  They collide
case-insensitively, so both are renamed, to `A (chan)` and `a (chan)`; but the
`new_title in used_titles` check is case-sensitive, so no suffix is added and
the two surviving titles are still equal under case-insensitive comparison
(they share the collision key `a (chan)`), contradicting the claimed
invariant. -/
theorem deduplicate_titles_case_collision :
    (deduplicate_titles (fun _ => "u0XYZW12")
        [("chan",
          { isPrivate := false, space_key := "C", space_id := none, space_created := false,
            page_id := none, path := "/base/chan.md", uploaded := false, media_uploaded := [],
            media_links_fixed := false, links_fixed := false,
            children := [("A", freshPage "/base/chan/A.md"),
                         ("a", freshPage "/base/chan/a.md")] })]).map
        (fun e => e.2.children.map Prod.fst)
      = [["A (chan)", "a (chan)"]] ∧
    lowerKey "A (chan)" = lowerKey "a (chan)" ∧ "A (chan)" ≠ "a (chan)" := by
  constructor
  · rfl
  · constructor
    · rfl
    · decide

lemma pageStep_calls (env : PagesEnv) (sid : Option String) (title pa : String)
    (pg : Option String) (up : Bool) (parentId : Option String) :
    ∀ c ∈ (pageStep env sid title pa pg up parentId).2.2.1,
      up = false ∧ c = ⟨sid, title, pa, parentId⟩ := by
  intro c hc
  unfold pageStep at hc
  by_cases hup : up
  · simp [hup] at hc
  · simp only [hup, if_false, Bool.false_eq_true] at hc
    cases hres : migrate_single_page env title pa sid parentId with
    | raised => rw [hres] at hc; simp at hc; exact ⟨by simp [hup], hc⟩
    | ok r =>
        rw [hres] at hc
        by_cases htr : truthyS r
        · simp [htr] at hc; exact ⟨by simp [hup], hc⟩
        · simp [htr] at hc; exact ⟨by simp [hup], hc⟩

lemma migratePagesF_calls_sound (env : PagesEnv) (sid : Option String) (skey : String) :
    ∀ (forest : List (String × PageU)) (parentId : Option String),
      ∀ c ∈ (migratePagesF env sid skey forest parentId).2.1,
        ∃ e ∈ entriesF forest, e.2.uploaded = false ∧ c.path = e.2.path := by
  intro forest parentId
  induction forest, parentId using migratePagesF.induct env sid skey
  case case1 => intro c hc; simp [migratePagesF] at hc
  case case2 title pa pr pi pg up mu mlf lf ch rest parentId pg' up' calls₁ hstep =>
    intro c hc
    have hc' : c ∈ (pageStep env sid title pa pg up parentId).2.2.1 := by
      simp only [migratePagesF] at hc
      rw [hstep] at hc
      rw [hstep]
      exact hc
    obtain ⟨hup, hceq⟩ := pageStep_calls env sid title pa pg up parentId c hc'
    refine ⟨(title, PageU.mk pa pr pi pg up mu mlf lf ch), ?_, ?_, ?_⟩
    · simp [entriesF]
    · simpa [PageU.uploaded] using hup
    · subst hceq; simp [PageU.path]
  case case3 title pa pr pi pg up mu mlf lf ch rest parentId pg' up' calls₁ hstep chOut chCalls hif ih =>
    intro c hc
    simp only [migratePagesF] at hc
    rw [hstep] at hc
    simp only [List.mem_append] at hc
    by_cases hcond : ((!ch.isEmpty) && truthyS pg') = true
    · rw [dif_pos hcond] at hif
      rw [if_pos hcond, hif] at hc
      simp only [List.mem_append] at hc
      rcases hc with hcl | hcr
      · have hc' : c ∈ (pageStep env sid title pa pg up parentId).2.2.1 := by
          rw [hstep]; exact hcl
        obtain ⟨hup, hceq⟩ := pageStep_calls env sid title pa pg up parentId c hc'
        refine ⟨(title, PageU.mk pa pr pi pg up mu mlf lf ch), ?_, ?_, ?_⟩
        · simp [entriesF]
        · simpa [PageU.uploaded] using hup
        · subst hceq; simp [PageU.path]
      · have hcr' : c ∈ (migratePagesF env sid skey ch pg').2.1 := by
          rw [hif]; exact hcr
        obtain ⟨e, hmem, hprops⟩ := ih c hcr'
        refine ⟨e, ?_, hprops⟩
        simp only [entriesF, List.mem_cons, List.mem_append]
        exact Or.inr (Or.inl hmem)
    · rw [dif_neg hcond] at hif
      simp at hif
  case case4 title pa pr pi pg up mu mlf lf ch rest parentId pg' up' calls₁ hstep chOut chCalls hif ihch ihrest =>
    intro c hc
    simp only [migratePagesF] at hc
    rw [hstep] at hc
    simp only [List.mem_append] at hc
    have hmain : c ∈ calls₁ →
        ∃ e ∈ entriesF ((title, PageU.mk pa pr pi pg up mu mlf lf ch) :: rest),
          e.2.uploaded = false ∧ c.path = e.2.path := by
      intro hcl
      have hc' : c ∈ (pageStep env sid title pa pg up parentId).2.2.1 := by
        rw [hstep]; exact hcl
      obtain ⟨hup, hceq⟩ := pageStep_calls env sid title pa pg up parentId c hc'
      refine ⟨(title, PageU.mk pa pr pi pg up mu mlf lf ch), ?_, ?_, ?_⟩
      · simp [entriesF]
      · simpa [PageU.uploaded] using hup
      · subst hceq; simp [PageU.path]
    have hrest : c ∈ (migratePagesF env sid skey rest parentId).2.1 →
        ∃ e ∈ entriesF ((title, PageU.mk pa pr pi pg up mu mlf lf ch) :: rest),
          e.2.uploaded = false ∧ c.path = e.2.path := by
      intro hcr
      obtain ⟨e, hmem, hprops⟩ := ihrest c hcr
      refine ⟨e, ?_, hprops⟩
      simp only [entriesF, List.mem_cons, List.mem_append]
      exact Or.inr (Or.inr hmem)
    by_cases hcond : ((!ch.isEmpty) && truthyS pg') = true
    · rw [dif_pos hcond] at hif
      rw [if_pos hcond, hif] at hc
      simp only [List.mem_append] at hc
      rcases hc with (hcl | hcr) | hcrest
      · exact hmain hcl
      · have hcr' : c ∈ (migratePagesF env sid skey ch pg').2.1 := by
          rw [hif]; exact hcr
        obtain ⟨e, hmem, hprops⟩ := ihch c hcr'
        refine ⟨e, ?_, hprops⟩
        simp only [entriesF, List.mem_cons, List.mem_append]
        exact Or.inr (Or.inl hmem)
      · exact hrest hcrest
    · rw [if_neg hcond] at hc
      simp only [List.mem_append] at hc
      rcases hc with (hcl | hcr) | hcrest
      · exact hmain hcl
      · simp at hcr
      · exact hrest hcrest

lemma pageStep_binds (env : PagesEnv) (sid : Option String) (title pa : String)
    (pg : Option String) (up : Bool) (parentId : Option String)
    (pg' : Option String) (up' : Bool) (calls₁ : List CreateCall) (ab : Bool)
    (h : pageStep env sid title pa pg up parentId = (pg', up', calls₁, ab)) :
    (pg' = pg ∧ up' = up) ∨ (up' = true ∧ truthyS pg' = true) := by
  unfold pageStep at h
  by_cases hup : up = true
  · rw [if_pos hup] at h
    injection h with h1 hrest
    injection hrest with h2 hrest2
    exact Or.inl ⟨h1.symm, h2.symm⟩
  · rw [if_neg hup] at h
    cases hres : migrate_single_page env title pa sid parentId with
    | raised =>
        rw [hres] at h
        injection h with h1 hrest
        injection hrest with h2 hrest2
        exact Or.inl ⟨h1.symm, h2.symm⟩
    | ok r =>
        simp only [hres] at h
        by_cases htr : truthyS r = true
        · rw [if_pos htr] at h
          injection h with h1 hrest
          injection hrest with h2 hrest2
          exact Or.inr ⟨h2.symm, h1 ▸ htr⟩
        · rw [if_neg htr] at h
          injection h with h1 hrest
          injection hrest with h2 hrest2
          exact Or.inl ⟨h1.symm, h2.symm⟩

lemma migratePagesF_uploaded_inv (env : PagesEnv) (sid : Option String) (skey : String) :
    ∀ (forest : List (String × PageU)) (parentId : Option String),
      (∀ e ∈ entriesF forest, e.2.uploaded = true → truthyS e.2.page_id = true) →
      ∀ e ∈ entriesF (migratePagesF env sid skey forest parentId).1,
        e.2.uploaded = true → truthyS e.2.page_id = true := by
  intro forest parentId
  induction forest, parentId using migratePagesF.induct env sid skey
  case case1 => intro h e he; simp [migratePagesF, entriesF] at he
  case case2 title pa pr pi pg up mu mlf lf ch rest parentId pg' up' calls₁ hstep =>
    intro h e he
    have hHead := h (title, PageU.mk pa pr pi pg up mu mlf lf ch) (by simp [entriesF])
    have hCh : ∀ e ∈ entriesF ch, e.2.uploaded = true → truthyS e.2.page_id = true := by
      intro e he'
      exact h e (by simp only [entriesF, List.mem_cons, List.mem_append]; exact Or.inr (Or.inl he'))
    have hRest : ∀ e ∈ entriesF rest, e.2.uploaded = true → truthyS e.2.page_id = true := by
      intro e he'
      exact h e (by simp only [entriesF, List.mem_cons, List.mem_append]; exact Or.inr (Or.inr he'))
    simp only [migratePagesF, hstep] at he
    simp only [entriesF, List.mem_cons, List.mem_append] at he
    rcases he with he | he | he
    · subst he
      intro hup'
      simp only [PageU.uploaded] at hup'
      simp only [PageU.page_id]
      rcases pageStep_binds env sid title pa pg up parentId pg' up' calls₁ true hstep with
        ⟨hpg, hup⟩ | ⟨-, htr⟩
      · subst hpg
        have hupeq : up = true := by rw [← hup]; exact hup'
        simpa [PageU.page_id] using hHead (by simpa [PageU.uploaded] using hupeq)
      · exact htr
    · exact hCh e he
    · exact hRest e he
  case case3 title pa pr pi pg up mu mlf lf ch rest parentId pg' up' calls₁ hstep chOut chCalls hif ih =>
    intro h e he
    have hHead := h (title, PageU.mk pa pr pi pg up mu mlf lf ch) (by simp [entriesF])
    have hCh : ∀ e ∈ entriesF ch, e.2.uploaded = true → truthyS e.2.page_id = true := by
      intro e he'
      exact h e (by simp only [entriesF, List.mem_cons, List.mem_append]; exact Or.inr (Or.inl he'))
    have hRest : ∀ e ∈ entriesF rest, e.2.uploaded = true → truthyS e.2.page_id = true := by
      intro e he'
      exact h e (by simp only [entriesF, List.mem_cons, List.mem_append]; exact Or.inr (Or.inr he'))
    have hHeadCase : ∀ chO : List (String × PageU),
        e = (title, PageU.mk pa pr pi pg' up' mu mlf lf chO) →
        e.2.uploaded = true → truthyS e.2.page_id = true := by
      intro chO heq hup'
      subst heq
      simp only [PageU.uploaded] at hup'
      simp only [PageU.page_id]
      rcases pageStep_binds env sid title pa pg up parentId pg' up' calls₁ false hstep with
        ⟨hpg, hup⟩ | ⟨-, htr⟩
      · subst hpg
        have hupeq : up = true := by rw [← hup]; exact hup'
        simpa [PageU.page_id] using hHead (by simpa [PageU.uploaded] using hupeq)
      · exact htr
    simp only [migratePagesF, hstep] at he
    by_cases hcond : ((!ch.isEmpty) && truthyS pg') = true
    · rw [dif_pos hcond] at hif
      rw [if_pos hcond, hif] at he
      simp only [entriesF, List.mem_cons, List.mem_append] at he
      rcases he with he | he | he
      · exact hHeadCase chOut he
      · have : e ∈ entriesF (migratePagesF env sid skey ch pg').1 := by rw [hif]; exact he
        exact ih hCh e this
      · exact hRest e he
    · rw [dif_neg hcond] at hif
      simp at hif
  case case4 title pa pr pi pg up mu mlf lf ch rest parentId pg' up' calls₁ hstep chOut chCalls hif ihch ihrest =>
    intro h e he
    have hHead := h (title, PageU.mk pa pr pi pg up mu mlf lf ch) (by simp [entriesF])
    have hCh : ∀ e ∈ entriesF ch, e.2.uploaded = true → truthyS e.2.page_id = true := by
      intro e he'
      exact h e (by simp only [entriesF, List.mem_cons, List.mem_append]; exact Or.inr (Or.inl he'))
    have hRest : ∀ e ∈ entriesF rest, e.2.uploaded = true → truthyS e.2.page_id = true := by
      intro e he'
      exact h e (by simp only [entriesF, List.mem_cons, List.mem_append]; exact Or.inr (Or.inr he'))
    have hHeadCase : ∀ chO : List (String × PageU),
        e = (title, PageU.mk pa pr pi pg' up' mu mlf lf chO) →
        e.2.uploaded = true → truthyS e.2.page_id = true := by
      intro chO heq hup'
      subst heq
      simp only [PageU.uploaded] at hup'
      simp only [PageU.page_id]
      rcases pageStep_binds env sid title pa pg up parentId pg' up' calls₁ false hstep with
        ⟨hpg, hup⟩ | ⟨-, htr⟩
      · subst hpg
        have hupeq : up = true := by rw [← hup]; exact hup'
        simpa [PageU.page_id] using hHead (by simpa [PageU.uploaded] using hupeq)
      · exact htr
    simp only [migratePagesF, hstep] at he
    by_cases hcond : ((!ch.isEmpty) && truthyS pg') = true
    · rw [dif_pos hcond] at hif
      rw [if_pos hcond, hif] at he
      simp only [entriesF, List.mem_cons, List.mem_append] at he
      rcases he with he | he | he
      · exact hHeadCase chOut he
      · have : e ∈ entriesF (migratePagesF env sid skey ch pg').1 := by rw [hif]; exact he
        exact ihch hCh e this
      · exact ihrest hRest e he
    · rw [if_neg hcond] at he
      simp only [entriesF, List.mem_cons, List.mem_append] at he
      rcases he with he | he | he
      · exact hHeadCase ch he
      · exact hCh e he
      · exact ihrest hRest e he

lemma pageStep_calls_eq (env : PagesEnv) (sid : Option String) (title pa : String)
    (pg : Option String) (parentId : Option String) :
    (pageStep env sid title pa pg false parentId).2.2.1 = [⟨sid, title, pa, parentId⟩] := by
  unfold pageStep
  simp only [if_false, Bool.false_eq_true]
  cases migrate_single_page env title pa sid parentId with
  | raised => rfl
  | ok r =>
      by_cases htr : truthyS r = true
      · simp [htr]
      · simp [htr]

lemma migratePagesF_uploaded_origin (env : PagesEnv) (sid : Option String) (skey : String) :
    ∀ (forest : List (String × PageU)) (parentId : Option String),
      ∀ e' ∈ entriesF (migratePagesF env sid skey forest parentId).1,
        e'.2.uploaded = true →
        (∃ e ∈ entriesF forest, e.2.path = e'.2.path ∧ e.2.uploaded = true) ∨
        (∃ c ∈ (migratePagesF env sid skey forest parentId).2.1, c.path = e'.2.path) := by
  intro forest parentId
  induction forest, parentId using migratePagesF.induct env sid skey
  case case1 => intro e' he'; simp [migratePagesF, entriesF] at he'
  case case2 title pa pr pi pg up mu mlf lf ch rest parentId pg' up' calls₁ hstep =>
    intro e' he' hup'
    simp only [migratePagesF, hstep] at he' ⊢
    simp only [entriesF, List.mem_cons, List.mem_append] at he'
    rcases he' with he' | he' | he'
    · by_cases hup : up = true
      · rcases pageStep_binds env sid title pa pg up parentId pg' up' calls₁ true hstep with
          ⟨hpg, -⟩ | ⟨-, htr⟩
        all_goals {
          left
          refine ⟨(title, PageU.mk pa pr pi pg up mu mlf lf ch), by simp [entriesF], ?_, hup⟩
          subst he'; simp [PageU.path] }
      · right
        have hb : up = false := by revert hup; cases up <;> simp
        subst hb
        have hcalls : calls₁ = [⟨sid, title, pa, parentId⟩] := by
          have := pageStep_calls_eq env sid title pa pg parentId
          rw [hstep] at this
          simpa using this
        subst hcalls
        exact ⟨⟨sid, title, pa, parentId⟩, by simp, by subst he'; simp [PageU.path]⟩
    · left
      refine ⟨e', ?_, rfl, hup'⟩
      simp only [entriesF, List.mem_cons, List.mem_append]
      exact Or.inr (Or.inl he')
    · left
      refine ⟨e', ?_, rfl, hup'⟩
      simp only [entriesF, List.mem_cons, List.mem_append]
      exact Or.inr (Or.inr he')
  case case3 title pa pr pi pg up mu mlf lf ch rest parentId pg' up' calls₁ hstep chOut chCalls hif ih =>
    intro e' he' hup'
    simp only [migratePagesF, hstep] at he' ⊢
    by_cases hcond : ((!ch.isEmpty) && truthyS pg') = true
    · rw [dif_pos hcond] at hif
      rw [if_pos hcond, hif] at he' ⊢
      simp only [entriesF, List.mem_cons, List.mem_append] at he'
      rcases he' with he' | he' | he'
      · by_cases hup : up = true
        · left
          refine ⟨(title, PageU.mk pa pr pi pg up mu mlf lf ch), by simp [entriesF], ?_, hup⟩
          subst he'; simp [PageU.path]
        · right
          have hb : up = false := by revert hup; cases up <;> simp
          subst hb
          have hcalls : calls₁ = [⟨sid, title, pa, parentId⟩] := by
            have := pageStep_calls_eq env sid title pa pg parentId
            rw [hstep] at this
            simpa using this
          subst hcalls
          exact ⟨⟨sid, title, pa, parentId⟩, by simp, by subst he'; simp [PageU.path]⟩
      · have hsub : e' ∈ entriesF (migratePagesF env sid skey ch pg').1 := by
          rw [hif]; exact he'
        rcases ih e' hsub hup' with ⟨e, hmem, hpath, hupl⟩ | ⟨c, hmem, hpath⟩
        · left
          refine ⟨e, ?_, hpath, hupl⟩
          simp only [entriesF, List.mem_cons, List.mem_append]
          exact Or.inr (Or.inl hmem)
        · right
          refine ⟨c, ?_, hpath⟩
          have hcc : c ∈ chCalls := by rw [hif] at hmem; exact hmem
          simp [hcc]
      · left
        refine ⟨e', ?_, rfl, hup'⟩
        simp only [entriesF, List.mem_cons, List.mem_append]
        exact Or.inr (Or.inr he')
    · rw [dif_neg hcond] at hif
      simp at hif
  case case4 title pa pr pi pg up mu mlf lf ch rest parentId pg' up' calls₁ hstep chOut chCalls hif ihch ihrest =>
    intro e' he' hup'
    simp only [migratePagesF, hstep] at he' ⊢
    by_cases hcond : ((!ch.isEmpty) && truthyS pg') = true
    · rw [dif_pos hcond] at hif
      rw [if_pos hcond, hif] at he' ⊢
      simp only [entriesF, List.mem_cons, List.mem_append] at he'
      rcases he' with he' | he' | he'
      · by_cases hup : up = true
        · left
          refine ⟨(title, PageU.mk pa pr pi pg up mu mlf lf ch), by simp [entriesF], ?_, hup⟩
          subst he'; simp [PageU.path]
        · right
          have hb : up = false := by revert hup; cases up <;> simp
          subst hb
          have hcalls : calls₁ = [⟨sid, title, pa, parentId⟩] := by
            have := pageStep_calls_eq env sid title pa pg parentId
            rw [hstep] at this
            simpa using this
          subst hcalls
          exact ⟨⟨sid, title, pa, parentId⟩, by simp, by subst he'; simp [PageU.path]⟩
      · have hsub : e' ∈ entriesF (migratePagesF env sid skey ch pg').1 := by
          rw [hif]; exact he'
        rcases ihch e' hsub hup' with ⟨e, hmem, hpath, hupl⟩ | ⟨c, hmem, hpath⟩
        · left
          refine ⟨e, ?_, hpath, hupl⟩
          simp only [entriesF, List.mem_cons, List.mem_append]
          exact Or.inr (Or.inl hmem)
        · right
          refine ⟨c, ?_, hpath⟩
          have hcc : c ∈ chCalls := by rw [hif] at hmem; exact hmem
          simp [hcc]
      · rcases ihrest e' he' hup' with ⟨e, hmem, hpath, hupl⟩ | ⟨c, hmem, hpath⟩
        · left
          refine ⟨e, ?_, hpath, hupl⟩
          simp only [entriesF, List.mem_cons, List.mem_append]
          exact Or.inr (Or.inr hmem)
        · right
          exact ⟨c, by simp [hmem], hpath⟩
    · rw [if_neg hcond] at he' ⊢
      simp only [entriesF, List.mem_cons, List.mem_append] at he'
      rcases he' with he' | he' | he'
      · by_cases hup : up = true
        · left
          refine ⟨(title, PageU.mk pa pr pi pg up mu mlf lf ch), by simp [entriesF], ?_, hup⟩
          subst he'; simp [PageU.path]
        · right
          have hb : up = false := by revert hup; cases up <;> simp
          subst hb
          have hcalls : calls₁ = [⟨sid, title, pa, parentId⟩] := by
            have := pageStep_calls_eq env sid title pa pg parentId
            rw [hstep] at this
            simpa using this
          subst hcalls
          exact ⟨⟨sid, title, pa, parentId⟩, by simp, by subst he'; simp [PageU.path]⟩
      · left
        refine ⟨e', ?_, rfl, hup'⟩
        simp only [entriesF, List.mem_cons, List.mem_append]
        exact Or.inr (Or.inl he')
      · rcases ihrest e' he' hup' with ⟨e, hmem, hpath, hupl⟩ | ⟨c, hmem, hpath⟩
        · left
          refine ⟨e, ?_, hpath, hupl⟩
          simp only [entriesF, List.mem_cons, List.mem_append]
          exact Or.inr (Or.inr hmem)
        · right
          exact ⟨c, by simp [hmem], hpath⟩

lemma migrate_pages_calls_sound (env : PagesEnv) :
    ∀ (struct : List (String × ChannelU)), ∀ c ∈ (migrate_pages env struct).2.1,
      ∃ chn ∈ struct, ∃ e ∈ entriesF (chn : String × ChannelU).2.children,
        e.2.uploaded = false ∧ c.path = e.2.path := by
  intro struct
  induction struct with
  | nil => intro c hc; simp [migrate_pages] at hc
  | cons hd rest ih =>
      obtain ⟨name, data⟩ := hd
      intro c hc
      rcases hF : migratePagesF env data.space_id data.space_key data.children none with
        ⟨chOut, calls, ab⟩
      cases ab
      · simp only [migrate_pages, hF] at hc
        have hc2 : c ∈ calls ++ (migrate_pages env rest).2.1 := hc
        rcases List.mem_append.mp hc2 with hcl | hcr
        · have : c ∈ (migratePagesF env data.space_id data.space_key data.children none).2.1 := by
            rw [hF]; exact hcl
          obtain ⟨e, hmem, hprops⟩ := migratePagesF_calls_sound env data.space_id data.space_key
            data.children none c this
          exact ⟨(name, data), by simp, e, hmem, hprops⟩
        · obtain ⟨chn, hchn, e, hmem, hprops⟩ := ih c hcr
          exact ⟨chn, by simp [hchn], e, hmem, hprops⟩
      · simp only [migrate_pages, hF] at hc
        have hc2 : c ∈ calls := hc
        have : c ∈ (migratePagesF env data.space_id data.space_key data.children none).2.1 := by
          rw [hF]; exact hc2
        obtain ⟨e, hmem, hprops⟩ := migratePagesF_calls_sound env data.space_id data.space_key
          data.children none c this
        exact ⟨(name, data), by simp, e, hmem, hprops⟩

lemma migrate_pages_inv (env : PagesEnv) :
    ∀ (struct : List (String × ChannelU)),
      (∀ chn ∈ struct, ∀ e ∈ entriesF (chn : String × ChannelU).2.children,
        e.2.uploaded = true → truthyS e.2.page_id = true) →
      ∀ chn ∈ (migrate_pages env struct).1, ∀ e ∈ entriesF (chn : String × ChannelU).2.children,
        e.2.uploaded = true → truthyS e.2.page_id = true := by
  intro struct
  induction struct with
  | nil => intro h chn hchn; simp [migrate_pages] at hchn
  | cons hd rest ih =>
      obtain ⟨name, data⟩ := hd
      intro h chn hchn
      have hHd : ∀ e ∈ entriesF data.children, e.2.uploaded = true → truthyS e.2.page_id = true :=
        h (name, data) (by simp)
      have hRest : ∀ chn ∈ rest, ∀ e ∈ entriesF (chn : String × ChannelU).2.children,
          e.2.uploaded = true → truthyS e.2.page_id = true := by
        intro chn hchn' e he
        exact h chn (by simp [hchn']) e he
      rcases hF : migratePagesF env data.space_id data.space_key data.children none with
        ⟨chOut, calls, ab⟩
      have hChOut : ∀ e ∈ entriesF chOut, e.2.uploaded = true → truthyS e.2.page_id = true := by
        intro e he
        have : e ∈ entriesF (migratePagesF env data.space_id data.space_key data.children none).1 := by
          rw [hF]; exact he
        exact migratePagesF_uploaded_inv env data.space_id data.space_key data.children none hHd e this
      cases ab
      · simp only [migrate_pages, hF] at hchn
        have hchn2 : chn ∈ (name, { data with children := chOut }) :: (migrate_pages env rest).1 := hchn
        rcases List.mem_cons.mp hchn2 with hchn' | hchn'
        · subst hchn'; exact hChOut
        · exact ih hRest chn hchn'
      · simp only [migrate_pages, hF] at hchn
        have hchn2 : chn ∈ (name, { data with children := chOut }) :: rest := hchn
        rcases List.mem_cons.mp hchn2 with hchn' | hchn'
        · subst hchn'; exact hChOut
        · exact hRest chn hchn'

lemma migrate_pages_origin (env : PagesEnv) :
    ∀ (struct : List (String × ChannelU)),
      ∀ chn' ∈ (migrate_pages env struct).1, ∀ e' ∈ entriesF (chn' : String × ChannelU).2.children,
        e'.2.uploaded = true →
        (∃ chn ∈ struct, ∃ e ∈ entriesF (chn : String × ChannelU).2.children,
          e.2.path = e'.2.path ∧ e.2.uploaded = true) ∨
        (∃ c ∈ (migrate_pages env struct).2.1, c.path = e'.2.path) := by
  intro struct
  induction struct with
  | nil => intro chn' hchn'; simp [migrate_pages] at hchn'
  | cons hd rest ih =>
      obtain ⟨name, data⟩ := hd
      intro chn' hchn' e' he' hup'
      rcases hF : migratePagesF env data.space_id data.space_key data.children none with
        ⟨chOut, calls, ab⟩
      have hChOut : e' ∈ entriesF chOut →
          (∃ e ∈ entriesF data.children, e.2.path = e'.2.path ∧ e.2.uploaded = true) ∨
          (∃ c ∈ calls, c.path = e'.2.path) := by
        intro hmem
        have hm2 : e' ∈ entriesF (migratePagesF env data.space_id data.space_key data.children none).1 := by
          rw [hF]; exact hmem
        rcases migratePagesF_uploaded_origin env data.space_id data.space_key data.children none
            e' hm2 hup' with ⟨e, hmem2, hprops⟩ | ⟨c, hmem2, hprops⟩
        · exact Or.inl ⟨e, hmem2, hprops⟩
        · refine Or.inr ⟨c, ?_, hprops⟩
          rw [hF] at hmem2; exact hmem2
      cases ab
      · simp only [migrate_pages, hF] at hchn' ⊢
        have hchn2 : chn' ∈ (name, { data with children := chOut }) :: (migrate_pages env rest).1 := hchn'
        rcases List.mem_cons.mp hchn2 with hc | hc
        · subst hc
          rcases hChOut he' with ⟨e, hmem, hprops⟩ | ⟨c, hmem, hprops⟩
          · exact Or.inl ⟨(name, data), by simp, e, hmem, hprops⟩
          · exact Or.inr ⟨c, by simp [hmem], hprops⟩
        · rcases ih chn' hc e' he' hup' with ⟨chn, hchn, e, hmem, hprops⟩ | ⟨c, hmem, hprops⟩
          · exact Or.inl ⟨chn, by simp [hchn], e, hmem, hprops⟩
          · exact Or.inr ⟨c, by simp [hmem], hprops⟩
      · simp only [migrate_pages, hF] at hchn' ⊢
        have hchn2 : chn' ∈ (name, { data with children := chOut }) :: rest := hchn'
        rcases List.mem_cons.mp hchn2 with hc | hc
        · subst hc
          rcases hChOut he' with ⟨e, hmem, hprops⟩ | ⟨c, hmem, hprops⟩
          · exact Or.inl ⟨(name, data), by simp, e, hmem, hprops⟩
          · exact Or.inr ⟨c, hmem, hprops⟩
        · exact Or.inl ⟨chn', by simp [hc], e', he', rfl, hup'⟩

/-- C1: at-most-once page creation.  (a) When every Page at a given path is
already uploaded, re-running the page-migration phase issues no create-page
call for that path.  (b) The invariant that an uploaded Page has a bound
truthy `page_id` is preserved by the phase.  (c) Every Page uploaded after
the run either was already uploaded before it or had a create-page call
issued for its path during it — so `uploaded` becomes true only through a
create call that succeeded and bound a truthy id. -/
theorem migrate_pages_at_most_once (env : PagesEnv) (struct : List (String × ChannelU))
    (pp : String) :
    ((∀ chn ∈ struct, ∀ e ∈ entriesF (chn : String × ChannelU).2.children,
        e.2.path = pp → e.2.uploaded = true) →
      ∀ c ∈ (migrate_pages env struct).2.1, c.path ≠ pp) ∧
    ((∀ chn ∈ struct, ∀ e ∈ entriesF (chn : String × ChannelU).2.children,
        e.2.uploaded = true → truthyS e.2.page_id = true) →
      ∀ chn ∈ (migrate_pages env struct).1, ∀ e ∈ entriesF (chn : String × ChannelU).2.children,
        e.2.uploaded = true → truthyS e.2.page_id = true) ∧
    (∀ chn' ∈ (migrate_pages env struct).1, ∀ e' ∈ entriesF (chn' : String × ChannelU).2.children,
      e'.2.uploaded = true →
      (∃ chn ∈ struct, ∃ e ∈ entriesF (chn : String × ChannelU).2.children,
        e.2.path = e'.2.path ∧ e.2.uploaded = true) ∨
      (∃ c ∈ (migrate_pages env struct).2.1, c.path = e'.2.path)) := by
  refine ⟨?_, migrate_pages_inv env struct, migrate_pages_origin env struct⟩
  intro h c hc hpp
  obtain ⟨chn, hchn, e, he, hupf, hpath⟩ := migrate_pages_calls_sound env struct c hc
  have := h chn hchn e he (by rw [← hpath]; exact hpp)
  rw [this] at hupf
  cases hupf

/-- Witness for C1: on `chanW` with `pagesEnvW`, the create call issued (for
page `B`) is not for the already-uploaded path `pA`, and the newly uploaded
page `B` carries the truthy id bound by the successful create call. -/
theorem migrate_pages_at_most_once_witness :
    CreateCall.path ⟨some "s1", "B", "pB", none⟩ ≠ "pA" ∧
    truthyS (("B", PageU.mk "pB" none none (some "7") true [] false false [])
        : String × PageU).2.page_id = true :=
  ⟨(migrate_pages_at_most_once pagesEnvW [("c", chanW)] "pA").1
      (by
        simp only [chanW, List.mem_cons, List.mem_singleton, List.not_mem_nil, or_false]
        rintro chn rfl
        rintro e he
        simp only [entriesF, List.mem_cons, List.mem_append, List.not_mem_nil, or_false,
          false_or] at he
        rcases he with rfl | rfl <;> decide)
      ⟨some "s1", "B", "pB", none⟩
      (by simp [migrate_pages, migratePagesF, pageStep, migrate_single_page, pagesEnvW, chanW,
        truthyS]),
   (migrate_pages_at_most_once pagesEnvW [("c", chanW)] "pA").2.1
      (by
        simp only [chanW, List.mem_cons, List.mem_singleton, List.not_mem_nil, or_false]
        rintro chn rfl
        rintro e he
        simp only [entriesF, List.mem_cons, List.mem_append, List.not_mem_nil, or_false,
          false_or] at he
        rcases he with rfl | rfl <;> decide)
      ("c", { chanW with children := [("A", PageU.mk "pA" none none (some "9") true [] false false []),
                                      ("B", PageU.mk "pB" none none (some "7") true [] false false [])] })
      (by simp [migrate_pages, migratePagesF, pageStep, migrate_single_page, pagesEnvW, chanW,
        truthyS])
      ("B", PageU.mk "pB" none none (some "7") true [] false false [])
      (by simp [entriesF])
      (by simp [PageU.uploaded])⟩

/-- C7: the media upload loop (i) processes every file independently — it
equals the pointwise map of `mediaFileStep`, so a failure on one file never
aborts the page's remaining files (or, a fortiori, other pages); (ii) never
issues an upload call for a file whose `uploaded` flag is already true, and
leaves its status unchanged; (iii) when the upload raises, records the
exception's message on the file's status entry while `uploaded` stays false,
and the call is the only observable effect. -/
theorem migrate_media_upload_loop_spec (env : MediaEnv) (pageId mediaDir : String) :
    (∀ fs : List (String × MediaStatus),
       uploadMediaFiles env pageId mediaDir fs
         = (fs.map (fun e => (e.1, (mediaFileStep env pageId mediaDir e.1 e.2).1)),
            fs.flatMap (fun e => (mediaFileStep env pageId mediaDir e.1 e.2).2.toList))) ∧
    (∀ fname st, st.uploaded = true → mediaFileStep env pageId mediaDir fname st = (st, none)) ∧
    (∀ fname st msg, st.uploaded = false →
       env.isfile (joinPath mediaDir fname) = true →
       env.upload pageId (joinPath mediaDir fname) = Except.error msg →
       mediaFileStep env pageId mediaDir fname st
         = ({ st with error := some msg }, some (joinPath mediaDir fname)) ∧
       (mediaFileStep env pageId mediaDir fname st).1.uploaded = false) := by
  refine ⟨?_, ?_, ?_⟩
  · intro fs
    induction fs with
    | nil => simp [uploadMediaFiles]
    | cons hd rest ih =>
        obtain ⟨fname, st⟩ := hd
        simp [uploadMediaFiles, ih]
  · intro fname st hup
    simp [mediaFileStep, hup]
  · intro fname st msg hup hfile herr
    constructor
    · simp [mediaFileStep, hup, hfile, herr]
    · simp [mediaFileStep, hup, hfile, herr]

/-- Witness for C7: an already-uploaded file is skipped unchanged, and a
failing upload records the exception message with `uploaded` still false. -/
theorem migrate_media_upload_loop_spec_witness :
    mediaFileStep ⟨fun _ => true, fun _ _ => Except.error "boom"⟩ "42" "/m" "a.png"
        ⟨true, none⟩ = (⟨true, none⟩, none) ∧
    mediaFileStep ⟨fun _ => true, fun _ _ => Except.error "boom"⟩ "42" "/m" "a.png"
        ⟨false, none⟩ = (⟨false, some "boom"⟩, some "/m/a.png") :=
  ⟨(migrate_media_upload_loop_spec ⟨fun _ => true, fun _ _ => Except.error "boom"⟩ "42" "/m").2.1
      "a.png" ⟨true, none⟩ rfl,
   ((migrate_media_upload_loop_spec ⟨fun _ => true, fun _ _ => Except.error "boom"⟩ "42" "/m").2.2
      "a.png" ⟨false, none⟩ "boom" rfl rfl rfl).1⟩

lemma fixAllRefsF_complete (env : FixEnv) :
    ∀ (forest : List (String × PageU)), (fixAllRefsF env forest).2.2 = false →
      fixAllRefsF env forest = (fixMapForest env forest, fixCallsForest env forest, false) := by
  intro forest
  induction forest using fixAllRefsF.induct env
  case case1 => intro h; simp [fixAllRefsF, fixMapForest, fixCallsForest]
  case case2 t pa pr pi up mu mlf lf ch rest ih =>
    intro h
    have hval : fixAllRefsF env ((t, PageU.mk pa pr pi none up mu mlf lf ch) :: rest)
        = ((t, PageU.mk pa pr pi none up mu mlf lf ch) :: (fixAllRefsF env rest).1,
           (fixAllRefsF env rest).2.1, (fixAllRefsF env rest).2.2) := by
      simp only [fixAllRefsF]
    have hrest : (fixAllRefsF env rest).2.2 = false := by rw [hval] at h; exact h
    rw [hval, ih hrest]
    simp [fixMapForest, fixMapPage, fixCallsForest, fixCallsPage]
  case case3 t pa pr pi up mu mlf lf ch rest ih =>
    intro h
    have hval : fixAllRefsF env ((t, PageU.mk pa pr pi (some "") up mu mlf lf ch) :: rest)
        = ((t, PageU.mk pa pr pi (some "") up mu mlf lf ch) :: (fixAllRefsF env rest).1,
           (fixAllRefsF env rest).2.1, (fixAllRefsF env rest).2.2) := by
      simp [fixAllRefsF]
    have hrest : (fixAllRefsF env rest).2.2 = false := by rw [hval] at h; exact h
    rw [hval, ih hrest]
    simp [fixMapForest, fixMapPage, fixCallsForest, fixCallsPage]
  case case4 t pa pr pi up mu mlf lf ch rest pid hpid lf' calls₁ hstep =>
    intro h
    exfalso
    have hval : fixAllRefsF env ((t, PageU.mk pa pr pi (some pid) up mu mlf lf ch) :: rest)
        = ((t, PageU.mk pa pr pi (some pid) up mu mlf lf' ch) :: rest, calls₁, true) := by
      simp only [fixAllRefsF]
      rw [if_neg hpid]
      simp only [hstep]
    rw [hval] at h
    simp at h
  case case5 t pa pr pi up mu mlf lf ch rest pid hpid lf' calls₁ hstep chOut chCalls hif ihch =>
    intro h
    exfalso
    have hif' : (if (!ch.isEmpty) = true then fixAllRefsF env ch
        else ((ch : List (String × PageU)), ([] : List UpdCall), false)) = (chOut, chCalls, true) := hif
    have hval : fixAllRefsF env ((t, PageU.mk pa pr pi (some pid) up mu mlf lf ch) :: rest)
        = ((t, PageU.mk pa pr pi (some pid) up mu mlf lf' chOut) :: rest,
           calls₁ ++ chCalls, true) := by
      simp only [fixAllRefsF]
      rw [if_neg hpid]
      simp only [hstep]
      rw [hif']
    rw [hval] at h
    simp at h
  case case6 t pa pr pi up mu mlf lf ch rest pid hpid lf' calls₁ hstep chOut chCalls hif ihch ihrest =>
    intro h
    have hif' : (if (!ch.isEmpty) = true then fixAllRefsF env ch
        else ((ch : List (String × PageU)), ([] : List UpdCall), false)) = (chOut, chCalls, false) := hif
    have hval : fixAllRefsF env ((t, PageU.mk pa pr pi (some pid) up mu mlf lf ch) :: rest)
        = ((t, PageU.mk pa pr pi (some pid) up mu mlf lf' chOut) :: (fixAllRefsF env rest).1,
           calls₁ ++ chCalls ++ (fixAllRefsF env rest).2.1, (fixAllRefsF env rest).2.2) := by
      simp only [fixAllRefsF]
      rw [if_neg hpid]
      simp only [hstep]
      rw [hif']
    have hrest : (fixAllRefsF env rest).2.2 = false := by rw [hval] at h; exact h
    have hch : chOut = fixMapForest env ch ∧ chCalls = fixCallsForest env ch := by
      by_cases hne : (!ch.isEmpty) = true
      · rw [if_pos hne] at hif'
        have hchna : (fixAllRefsF env ch).2.2 = false := by rw [hif']
        rw [ihch hchna] at hif'
        exact ⟨(congrArg (fun x => x.1) hif').symm, (congrArg (fun x => x.2.1) hif').symm⟩
      · rw [if_neg hne] at hif'
        have hemp : ch = [] := by revert hne; cases ch <;> simp
        subst hemp
        refine ⟨?_, ?_⟩
        · simpa [fixMapForest] using (congrArg (fun x => x.1) hif').symm
        · simpa [fixCallsForest] using (congrArg (fun x => x.2.1) hif').symm
    obtain ⟨hco, hcc⟩ := hch
    subst hco
    subst hcc
    have hlf : lf' = (pageFixStep env t pa pid lf).1 := by rw [hstep]
    have hc1 : calls₁ = (pageFixStep env t pa pid lf).2.1 := by rw [hstep]
    rw [hval, ihrest hrest, hlf, hc1]
    simp [fixMapForest, fixMapPage, fixCallsForest, fixCallsPage, hpid]

lemma mem_fixMapForest (env : FixEnv) :
    ∀ (forest : List (String × PageU)),
      (∀ e ∈ entriesF forest, truthyS e.2.page_id = true) →
      ∀ t p, (t, p) ∈ entriesF forest →
        (t, fixMapPage env t p) ∈ entriesF (fixMapForest env forest) := by
  intro forest
  induction forest using entriesF.induct
  case case1 => intro hb t p hp; simp [entriesF] at hp
  case case2 t₀ pa pr pi pg up mu mlf lf ch rest ihch ihrest =>
    intro hb t p hp
    have hbHead : truthyS pg = true := by
      have := hb (t₀, PageU.mk pa pr pi pg up mu mlf lf ch) (by simp [entriesF])
      simpa [PageU.page_id] using this
    obtain ⟨pid, hpg⟩ : ∃ pid, pg = some pid := by
      cases pg with
      | none => simp [truthyS] at hbHead
      | some q => exact ⟨q, rfl⟩
    subst hpg
    have hpid : ¬pid = "" := by
      simpa [truthyS] using hbHead
    have hbCh : ∀ e ∈ entriesF ch, truthyS e.2.page_id = true := by
      intro e he
      exact hb e (by simp only [entriesF, List.mem_cons, List.mem_append]; exact Or.inr (Or.inl he))
    have hbRest : ∀ e ∈ entriesF rest, truthyS e.2.page_id = true := by
      intro e he
      exact hb e (by simp only [entriesF, List.mem_cons, List.mem_append]; exact Or.inr (Or.inr he))
    simp only [entriesF, List.mem_cons, List.mem_append] at hp
    have hmap : fixMapForest env ((t₀, PageU.mk pa pr pi (some pid) up mu mlf lf ch) :: rest)
        = (t₀, PageU.mk pa pr pi (some pid) up mu mlf (pageFixStep env t₀ pa pid lf).1
             (fixMapForest env ch)) :: fixMapForest env rest := by
      simp [fixMapForest, fixMapPage, hpid]
    rw [hmap]
    rcases hp with hp | hp | hp
    · obtain ⟨h1, h2⟩ := Prod.mk.injEq .. ▸ hp
      subst h1
      subst h2
      simp only [entriesF, List.mem_cons, List.mem_append]
      left
      simp [fixMapPage, hpid]
    · simp only [entriesF, List.mem_cons, List.mem_append]
      exact Or.inr (Or.inl (ihch hbCh t p hp))
    · simp only [entriesF, List.mem_cons, List.mem_append]
      exact Or.inr (Or.inr (ihrest hbRest t p hp))

lemma mem_fixCallsForest (env : FixEnv) :
    ∀ (forest : List (String × PageU)),
      (∀ e ∈ entriesF forest, truthyS e.2.page_id = true) →
      ∀ t p, (t, p) ∈ entriesF forest →
        fixCallsPage env t p ⊆ fixCallsForest env forest := by
  intro forest
  induction forest using entriesF.induct
  case case1 => intro hb t p hp; simp [entriesF] at hp
  case case2 t₀ pa pr pi pg up mu mlf lf ch rest ihch ihrest =>
    intro hb t p hp
    have hbHead : truthyS pg = true := by
      have := hb (t₀, PageU.mk pa pr pi pg up mu mlf lf ch) (by simp [entriesF])
      simpa [PageU.page_id] using this
    obtain ⟨pid, hpg⟩ : ∃ pid, pg = some pid := by
      cases pg with
      | none => simp [truthyS] at hbHead
      | some q => exact ⟨q, rfl⟩
    subst hpg
    have hpid : ¬pid = "" := by
      simpa [truthyS] using hbHead
    have hbCh : ∀ e ∈ entriesF ch, truthyS e.2.page_id = true := by
      intro e he
      exact hb e (by simp only [entriesF, List.mem_cons, List.mem_append]; exact Or.inr (Or.inl he))
    have hbRest : ∀ e ∈ entriesF rest, truthyS e.2.page_id = true := by
      intro e he
      exact hb e (by simp only [entriesF, List.mem_cons, List.mem_append]; exact Or.inr (Or.inr he))
    have hcalls : fixCallsForest env ((t₀, PageU.mk pa pr pi (some pid) up mu mlf lf ch) :: rest)
        = ((pageFixStep env t₀ pa pid lf).2.1 ++ fixCallsForest env ch)
            ++ fixCallsForest env rest := by
      simp [fixCallsForest, fixCallsPage, hpid]
    rw [hcalls]
    simp only [entriesF, List.mem_cons, List.mem_append] at hp
    rcases hp with hp | hp | hp
    · obtain ⟨h1, h2⟩ := Prod.mk.injEq .. ▸ hp
      subst h1
      subst h2
      intro c hc
      simp only [List.mem_append]
      left
      simpa [fixCallsPage, hpid] using hc
    · intro c hc
      simp only [List.mem_append]
      exact Or.inl (Or.inr (ihch hbCh t p hp hc))
    · intro c hc
      simp only [List.mem_append]
      exact Or.inr (ihrest hbRest t p hp hc)

/-- C3: behavior of `fix_all_references` on every Page with a bound
(truthy) `page_id`.  (i) When resolving local links leaves the raw document
unchanged, no update call is made and `links_fixed` stays false.  (ii) When
it changes the text, the page is re-rendered and republished with version
one greater than the fetched current version, and `links_fixed` becomes the
truthiness of the update result (true exactly on success).  (iii) A
completed (non-aborted) walk equals the pointwise application of this
per-page step.  (iv) Under (iii), every page's pointwise result appears in
the output tree and its update calls are all issued. -/
theorem fix_all_references_spec (env : FixEnv) (forest : List (String × PageU)) :
    (∀ title pa pid, env.resolve (env.files pa) = env.files pa →
       pageFixStep env title pa pid false = (false, [], false)) ∧
    (∀ title pa pid r, env.resolve (env.files pa) ≠ env.files pa →
       env.update pid title (env.render (env.resolve (env.files pa)))
         (env.getVersion pid + 1) fixMsg = UpdResult.ok r →
       pageFixStep env title pa pid false
         = (truthyS r,
            [⟨pa, pid, title, env.render (env.resolve (env.files pa)),
              env.getVersion pid + 1, fixMsg⟩], false)) ∧
    ((fixAllRefsF env forest).2.2 = false →
       fixAllRefsF env forest = (fixMapForest env forest, fixCallsForest env forest, false)) ∧
    ((∀ e ∈ entriesF forest, truthyS e.2.page_id = true) →
       (fixAllRefsF env forest).2.2 = false →
       ∀ t p, (t, p) ∈ entriesF forest →
         (t, fixMapPage env t p) ∈ entriesF (fixAllRefsF env forest).1 ∧
         fixCallsPage env t p ⊆ (fixAllRefsF env forest).2.1) := by
  refine ⟨?_, ?_, fixAllRefsF_complete env forest, ?_⟩
  · intro title pa pid heq
    simp [pageFixStep, heq]
  · intro title pa pid r hne hupd
    simp only [pageFixStep, hne, hupd, if_false, Bool.false_eq_true]
    by_cases htr : truthyS r = true
    · simp [htr]
    · simp [htr]
  · intro hb hna t p hp
    rw [fixAllRefsF_complete env forest hna]
    exact ⟨mem_fixMapForest env forest hb t p hp,
           mem_fixCallsForest env forest hb t p hp⟩

/-- Witness for C3: with an unchanged document no call is made and the flag
stays false; with a changed document the page is republished at version 5
(= fetched 4 + 1) and the flag becomes true; the completed walk issues that
call and stores the updated flag. -/
theorem fix_all_references_spec_witness :
    pageFixStep fixEnvU "T" "pa" "9" false = (false, [], false) ∧
    pageFixStep fixEnvC "T" "pa" "9" false
      = (truthyS (some "1"), [⟨"pa", "9", "T", "[x](https://c/1)", 5, fixMsg⟩], false) ∧
    (("P", fixMapPage fixEnvC "P" (PageU.mk "pP" none none (some "1") true [] false false []))
        ∈ entriesF (fixAllRefsF fixEnvC fixForestW).1 ∧
      fixCallsPage fixEnvC "P" (PageU.mk "pP" none none (some "1") true [] false false [])
        ⊆ (fixAllRefsF fixEnvC fixForestW).2.1) :=
  ⟨(fix_all_references_spec fixEnvU fixForestW).1 "T" "pa" "9" rfl,
   (fix_all_references_spec fixEnvC fixForestW).2.1 "T" "pa" "9" (some "1") (by decide) rfl,
   (fix_all_references_spec fixEnvC fixForestW).2.2.2
     (by
       intro e he
       simp only [fixForestW, entriesF, List.mem_cons, List.mem_append, List.not_mem_nil,
         or_false] at he
       subst he
       decide)
     (by simp [fixAllRefsF, fixForestW, fixEnvC, pageFixStep, fixMsg, truthyS])
     "P" (PageU.mk "pP" none none (some "1") true [] false false [])
     (by simp [fixForestW, entriesF])⟩

lemma takeUntil_append (stop : Char) (a b : List Char) (ha : stop ∉ a) :
    takeUntil stop (a ++ stop :: b) = some (a, b) := by
  induction a with
  | nil => simp [takeUntil]
  | cons c cs ih =>
      have hc : c ≠ stop := fun h => ha (h ▸ List.mem_cons_self c cs)
      have ha' : stop ∉ cs := fun h => ha (List.mem_cons_of_mem c h)
      simp only [List.cons_append, takeUntil, if_neg hc, List.append_eq]
      rw [ih ha']

lemma mediaRefMatch_eq (fname alt target suf : List Char)
    (halt : ']' ∉ alt) (htarget : ')' ∉ target)
    (hsfx : fname.isSuffixOf target = true) :
    mediaRefMatch fname (alt ++ ']' :: '(' :: target ++ ')' :: suf)
      = some (alt, target, suf) := by
  unfold mediaRefMatch
  have h1 : takeUntil ']' (alt ++ ']' :: ('(' :: target ++ ')' :: suf))
      = some (alt, '(' :: target ++ ')' :: suf) := takeUntil_append ']' alt _ halt
  rw [show alt ++ ']' :: '(' :: target ++ ')' :: suf
      = alt ++ ']' :: ('(' :: target ++ ')' :: suf) by simp, h1]
  rw [show ('(' :: target ++ ')' :: suf : List Char) = '(' :: (target ++ ')' :: suf) by simp]
  simp only [takeUntil_append ')' target suf htarget, hsfx, if_true]

lemma mediaSubAux_no_bang (fname url : List Char) :
    ∀ (fuel : Nat) (s : List Char), '!' ∉ s → mediaSubAux fname url fuel s = s := by
  intro fuel
  induction fuel with
  | zero => intro s _; rfl
  | succ fuel ih =>
      intro s hs
      match s with
      | [] => rfl
      | c :: cs =>
          have hc : c ≠ '!' := by
            intro h
            subst h
            exact hs (List.mem_cons_self _ _)
          have hcs : '!' ∉ cs := fun h => hs (List.mem_cons_of_mem c h)
          simp only [mediaSubAux, if_neg hc]
          rw [ih cs hcs]

lemma mediaSubAux_rewrite (fname url : List Char) :
    ∀ (pre : List Char) (alt target suf : List Char) (fuel : Nat),
      '!' ∉ pre → '!' ∉ suf → ']' ∉ alt → ')' ∉ target →
      fname.isSuffixOf target = true →
      (pre ++ '!' :: '[' :: alt ++ ']' :: '(' :: target ++ ')' :: suf).length ≤ fuel →
      mediaSubAux fname url fuel (pre ++ '!' :: '[' :: alt ++ ']' :: '(' :: target ++ ')' :: suf)
        = pre ++ '!' :: '[' :: alt ++ ']' :: '(' :: url ++ ')' :: suf := by
  intro pre
  induction pre with
  | nil =>
      intro alt target suf fuel hpre hsuf halt htarget hsfx hfuel
      simp only [List.nil_append] at hfuel ⊢
      match fuel, hfuel with
      | fuel + 1, _ =>
        have hm := mediaRefMatch_eq fname alt target suf halt htarget hsfx
        have hid : mediaSubAux fname url fuel suf = suf :=
          mediaSubAux_no_bang fname url fuel suf hsuf
        simp only [mediaSubAux, if_true, List.append_eq, List.cons_append,
          List.append_assoc] at hm ⊢
        rw [hm]
        simp [hid]
  | cons c cs ih =>
      intro alt target suf fuel hpre hsuf halt htarget hsfx hfuel
      have hc : c ≠ '!' := by
        intro h
        subst h
        exact hpre (List.mem_cons_self _ _)
      have hcs : '!' ∉ cs := fun h => hpre (List.mem_cons_of_mem c h)
      simp only [List.cons_append, List.length_cons] at hfuel ⊢
      match fuel, hfuel with
      | fuel + 1, hfuel =>
        simp only [mediaSubAux, if_neg hc]
        rw [ih alt target suf fuel hcs hsuf halt htarget hsfx (by omega)]

/-- C6 counterexample: the image target `./Media_page/diagram.png?v=1`
contains the URL-encoded filename `diagram.png` but does not end with it, and
the media-rewrite loop leaves the reference unchanged — contradicting the
claim that every reference whose target merely contains the encoded filename
is rewritten to the attachment URL. -/
theorem media_rewrite_contains_not_sufficient :
    rewriteMediaLinks "https://acme.atlassian.net/wiki" "42" ["diagram.png"]
        "![x](./Media_page/diagram.png?v=1)"
      = "![x](./Media_page/diagram.png?v=1)" := by rfl

/-- C6 (amended): a markdown image reference is rewritten exactly when its
target ends with the URL-encoded filename (immediately before the closing
parenthesis); the new target is
`{baseUrl}/download/attachments/{pageId}/{encodedFilename}`, applied before
the page is re-rendered and republished.  In particular the uploaded file
`diagram.png` on page 42 with base URL `https://acme.atlassian.net/wiki`
turns `![x](./Media_page/diagram.png)` into a reference to
`https://acme.atlassian.net/wiki/download/attachments/42/diagram.png`, while
a target that only contains the filename elsewhere is left unchanged. -/
theorem rewrite_media_links_spec :
    (∀ (fname url pre alt target suf : List Char) (fuel : Nat),
       '!' ∉ pre → '!' ∉ suf → ']' ∉ alt → ')' ∉ target →
       fname.isSuffixOf target = true →
       (pre ++ '!' :: '[' :: alt ++ ']' :: '(' :: target ++ ')' :: suf).length ≤ fuel →
       mediaSubAux fname url fuel (pre ++ '!' :: '[' :: alt ++ ']' :: '(' :: target ++ ')' :: suf)
         = pre ++ '!' :: '[' :: alt ++ ']' :: '(' :: url ++ ')' :: suf) ∧
    rewriteMediaLinks "https://acme.atlassian.net/wiki" "42" ["diagram.png"]
        "![x](./Media_page/diagram.png)"
      = "![x](https://acme.atlassian.net/wiki/download/attachments/42/diagram.png)" ∧
    rewriteMediaLinks "https://acme.atlassian.net/wiki" "42" ["diagram.png"]
        "![x](./Media_page/diagram.png?v=1)"
      = "![x](./Media_page/diagram.png?v=1)" :=
  ⟨fun fname url pre alt target suf fuel => mediaSubAux_rewrite fname url pre alt target suf fuel,
   by rfl, by rfl⟩

/-- Witness for C6 at a concrete reference `a ![x](./f.png) b`. -/
theorem rewrite_media_links_spec_witness :
    mediaSubAux "f.png".data "U".data 30
        ("a ".data ++ '!' :: '[' :: "x".data ++ ']' :: '(' :: "./f.png".data ++ ')' :: " b".data)
      = "a ".data ++ '!' :: '[' :: "x".data ++ ']' :: '(' :: "U".data ++ ')' :: " b".data :=
  rewrite_media_links_spec.1 "f.png".data "U".data "a ".data "x".data "./f.png".data " b".data 30
    (by decide) (by decide) (by decide) (by decide) (by decide) (by decide)

/-- C5 counterexample: with differing URLs the two lines are NOT preserved
unchanged — the autolink loses its angle brackets and the markdown link is
normalized to `[g3](g3)` (its escaped brackets dropped and its target
replaced by the bracketed URL).  The input is
`<https://a.com>` + newline + `[\[https://b.com\]](https://b.com)`. -/
theorem fix_duplicate_links_not_preserved :
    fix_duplicate_links "<https://a.com>\n[\\[https://b.com\\]](https://b.com)"
        = "https://a.com\n[https://b.com](https://b.com)" ∧
      ("https://a.com\n[https://b.com](https://b.com)" : String)
        ≠ "<https://a.com>\n[\\[https://b.com\\]](https://b.com)" :=
  ⟨by rfl, by decide⟩

lemma firstSome_append {α β : Type} (f : α → Option β) :
    ∀ (l₁ l₂ : List α), (∀ a ∈ l₁, f a = none) →
      firstSome f (l₁ ++ l₂) = firstSome f l₂ := by
  intro l₁
  induction l₁ with
  | nil => intro l₂ _; rfl
  | cons a as ih =>
      intro l₂ h
      have ha : f a = none := h a (List.mem_cons_self a as)
      simp only [List.cons_append, firstSome, ha]
      exact ih l₂ fun b hb => h b (List.mem_cons_of_mem a hb)

lemma firstSome_map {α γ β : Type} (f : γ → Option β) (g : α → γ) :
    ∀ l : List α, firstSome f (l.map g) = firstSome (fun a => f (g a)) l := by
  intro l
  induction l with
  | nil => rfl
  | cons a as ih =>
      simp only [List.map_cons, firstSome]
      cases f (g a) with
      | some v => rfl
      | none => exact ih

lemma firstSome_range {β : Type} (g : Nat → Option β) (m i₀ : Nat) (v : β)
    (hi : i₀ < m) (hv : g i₀ = some v) (hnone : ∀ i < i₀, g i = none) :
    firstSome g (List.range m) = some v := by
  have hm : m = i₀ + ((m - i₀ - 1) + 1) := by omega
  rw [hm, List.range_add, firstSome_append g _ _ (fun a ha => by
      simp only [List.mem_range] at ha
      exact hnone a ha)]
  rw [List.range_succ_eq_map]
  simp only [List.map_cons, Nat.add_zero, firstSome, hv]

lemma firstSome_lineSplits {β : Type} (f : List Char × List Char → Option β) (s : List Char)
    (k : Nat) (v : β)
    (hk : k ≤ (s.takeWhile fun c => c ≠ '\n').length)
    (hv : f (s.take k, s.drop k) = some v)
    (hnone : ∀ j, k < j → j ≤ (s.takeWhile fun c => c ≠ '\n').length →
        f (s.take j, s.drop j) = none) :
    firstSome f (lineSplitsDesc s) = some v := by
  have hmap : lineSplitsDesc s
      = (List.range ((s.takeWhile fun c => c ≠ '\n').length + 1)).map
          (fun i => (s.take ((s.takeWhile fun c => c ≠ '\n').length - i),
                     s.drop ((s.takeWhile fun c => c ≠ '\n').length - i))) := rfl
  rw [hmap, firstSome_map]
  refine firstSome_range _ _ ((s.takeWhile fun c => c ≠ '\n').length - k) v (by omega) ?_ ?_
  · have h : (s.takeWhile fun c => c ≠ '\n').length
        - ((s.takeWhile fun c => c ≠ '\n').length - k) = k := by omega
    rw [h]
    exact hv
  · intro i hi
    exact hnone ((s.takeWhile fun c => c ≠ '\n').length - i) (by omega) (by omega)

lemma takeWhile_line (a b : List Char) (ha : '\n' ∉ a) :
    List.takeWhile (fun c => c ≠ '\n') (a ++ '\n' :: b) = a := by
  induction a with
  | nil => rfl
  | cons c cs ih =>
      have hc : c ≠ '\n' := fun h => ha (h ▸ List.mem_cons_self c cs)
      have hcs : '\n' ∉ cs := fun h => ha (List.mem_cons_of_mem c h)
      rw [List.cons_append, List.takeWhile_cons, if_pos (by simp [hc]), ih hcs]

lemma takeWhile_noline (s : List Char) (h : '\n' ∉ s) :
    List.takeWhile (fun c => c ≠ '\n') s = s := by
  induction s with
  | nil => rfl
  | cons c cs ih =>
      have hc : c ≠ '\n' := fun he => h (he ▸ List.mem_cons_self c cs)
      have hcs : '\n' ∉ cs := fun he => h (List.mem_cons_of_mem c he)
      rw [List.takeWhile_cons, if_pos (by simp [hc]), ih hcs]

lemma fixDupAux_nil : ∀ f : Nat, fixDupAux f [] = [] := by
  intro f
  cases f <;> rfl

lemma dropWhile_head_stop (p : Char → Bool) (s : List Char)
    (h : ∀ c, s.head? = some c → p c = false) : List.dropWhile p s = s := by
  cases s with
  | nil => rfl
  | cons c cs =>
      rw [List.dropWhile_cons, if_neg]
      simp [h c rfl]

lemma matchG2_general (r2 : List Char)
    (h2 : ∀ c ∈ r2, isPyWs c = false ∧ c ≠ '\\') :
    matchG2 ('[' :: '\\' :: '[' :: 'h' :: 't' :: 't' :: 'p' ::
        (r2 ++ '\\' :: ']' :: ']' :: '(' :: 'h' :: 't' :: 't' :: 'p' :: (r2 ++ [')'])))
      = some ('h' :: 't' :: 't' :: 'p' :: r2, []) := by
  have hne : ∀ c ∈ r2, c ≠ '\n' := by
    intro c hc he
    have := (h2 c hc).1
    rw [he] at this
    exact absurd this (by decide)
  have hno1 : ('\n' : Char) ∉ r2 ++ [')'] := by
    intro hm
    rcases List.mem_append.mp hm with h | h
    · exact hne '\n' h rfl
    · simp at h
  have hno : ('\n' : Char)
      ∉ (r2 ++ '\\' :: ']' :: ']' :: '(' :: 'h' :: 't' :: 't' :: 'p' :: (r2 ++ [')'])) := by
    intro hm
    rcases List.mem_append.mp hm with h | h
    · exact hne '\n' h rfl
    · simp only [List.mem_cons] at h
      rcases h with h|h|h|h|h|h|h|h|h
      · exact absurd h (by decide)
      · exact absurd h (by decide)
      · exact absurd h (by decide)
      · exact absurd h (by decide)
      · exact absurd h (by decide)
      · exact absurd h (by decide)
      · exact absurd h (by decide)
      · exact absurd h (by decide)
      · exact hno1 h
  simp only [matchG2]
  rw [firstSome_lineSplits _
      (r2 ++ '\\' :: ']' :: ']' :: '(' :: 'h' :: 't' :: 't' :: 'p' :: (r2 ++ [')']))
      r2.length ('h' :: 't' :: 't' :: 'p' :: r2, ([] : List Char)) ?hk ?hv ?hnone]
  case hk =>
    rw [takeWhile_noline _ hno]
    simp
  case hv =>
    rw [List.take_left' rfl, List.drop_left' rfl]
    simp only []
    rw [firstSome_lineSplits _ (r2 ++ [')']) r2.length
        ('h' :: 't' :: 't' :: 'p' :: r2, ([] : List Char)) ?hk2 ?hv2 ?hnone2]
    case hk2 =>
      rw [takeWhile_noline _ hno1]
      simp
    case hv2 =>
      rw [List.take_left' rfl, List.drop_left' rfl]
      rfl
    case hnone2 =>
      intro j hj1 hj2
      rw [takeWhile_noline _ hno1] at hj2
      simp only [List.length_append, List.length_cons, List.length_nil] at hj2
      have hj : j = r2.length + 1 := by omega
      subst hj
      have hd : (r2 ++ [')']).drop (r2.length + 1) = [] := by
        rw [show r2.length + 1 = (r2 ++ [')']).length by simp, List.drop_length]
      rw [hd]
  case hnone =>
    intro j hj1 hj2
    obtain ⟨m, rfl⟩ : ∃ m, j = r2.length + (m + 1) := ⟨j - r2.length - 1, by omega⟩
    rw [List.drop_append (m + 1), List.drop_succ_cons]
    have hnb : ('\\' : Char)
        ∉ (']' :: ']' :: '(' :: 'h' :: 't' :: 't' :: 'p' :: (r2 ++ [')'])).drop m := by
      intro hm
      have h := List.mem_of_mem_drop hm
      simp only [List.mem_cons] at h
      rcases h with h|h|h|h|h|h|h|h
      · exact absurd h (by decide)
      · exact absurd h (by decide)
      · exact absurd h (by decide)
      · exact absurd h (by decide)
      · exact absurd h (by decide)
      · exact absurd h (by decide)
      · exact absurd h (by decide)
      · rcases List.mem_append.mp h with h | h
        · exact (h2 '\\' h).2 rfl
        · simp at h
    cases hds : (']' :: ']' :: '(' :: 'h' :: 't' :: 't' :: 'p' :: (r2 ++ [')'])).drop m with
    | nil => rfl
    | cons c cs =>
        rw [hds] at hnb
        have hc : c ≠ '\\' := fun h => hnb (h ▸ List.mem_cons_self c cs)
        simp only []
        split
        next heq => injection heq with h1 _; exact absurd h1 hc
        next => rfl

lemma matchDup_general (r1 r2 : List Char) (h1n : '\n' ∉ r1)
    (h2 : ∀ c ∈ r2, isPyWs c = false ∧ c ≠ '\\') :
    matchDup ('<' :: 'h' :: 't' :: 't' :: 'p' :: 's' ::
        (r1 ++ '>' :: '\n' :: '[' :: '\\' :: '[' :: 'h' :: 't' :: 't' :: 'p' ::
          (r2 ++ '\\' :: ']' :: ']' :: '(' :: 'h' :: 't' :: 't' :: 'p' :: (r2 ++ [')']))))
      = some ('<' :: 'h' :: 't' :: 't' :: 'p' :: 's' :: (r1 ++ ['>']),
              'h' :: 't' :: 't' :: 'p' :: r2, []) := by
  have hline : List.takeWhile (fun c => c ≠ '\n')
      (r1 ++ '>' :: '\n' :: '[' :: '\\' :: '[' :: 'h' :: 't' :: 't' :: 'p' ::
        (r2 ++ '\\' :: ']' :: ']' :: '(' :: 'h' :: 't' :: 't' :: 'p' :: (r2 ++ [')'])))
      = r1 ++ ['>'] := by
    rw [List.append_cons r1 '>' _]
    refine takeWhile_line _ _ ?_
    intro hm
    rcases List.mem_append.mp hm with h | h
    · exact h1n h
    · simp at h
  simp only [matchDup]
  rw [firstSome_lineSplits _
      (r1 ++ '>' :: '\n' :: '[' :: '\\' :: '[' :: 'h' :: 't' :: 't' :: 'p' ::
        (r2 ++ '\\' :: ']' :: ']' :: '(' :: 'h' :: 't' :: 't' :: 'p' :: (r2 ++ [')'])))
      r1.length
      ('<' :: 'h' :: 't' :: 't' :: 'p' :: 's' :: (r1 ++ ['>']),
        'h' :: 't' :: 't' :: 'p' :: r2, ([] : List Char)) ?hk ?hv ?hnone]
  case hk =>
    rw [hline]
    simp
  case hv =>
    rw [List.take_left' rfl, List.drop_left' rfl]
    simp only []
    rw [show List.dropWhile (fun c => c = '\n')
          ('\n' :: '[' :: '\\' :: '[' :: 'h' :: 't' :: 't' :: 'p' ::
            (r2 ++ '\\' :: ']' :: ']' :: '(' :: 'h' :: 't' :: 't' :: 'p' :: (r2 ++ [')'])))
        = '[' :: '\\' :: '[' :: 'h' :: 't' :: 't' :: 'p' ::
            (r2 ++ '\\' :: ']' :: ']' :: '(' :: 'h' :: 't' :: 't' :: 'p' :: (r2 ++ [')']))
      from rfl]
    rw [matchG2_general r2 h2]
  case hnone =>
    intro j hj1 hj2
    rw [hline] at hj2
    simp only [List.length_append, List.length_cons, List.length_nil] at hj2
    have hj : j = r1.length + 1 := by omega
    subst hj
    have hd : (r1 ++ '>' :: '\n' :: '[' :: '\\' :: '[' :: 'h' :: 't' :: 't' :: 'p' ::
          (r2 ++ '\\' :: ']' :: ']' :: '(' :: 'h' :: 't' :: 't' :: 'p' :: (r2 ++ [')']))).drop
            (r1.length + 1)
        = '\n' :: '[' :: '\\' :: '[' :: 'h' :: 't' :: 't' :: 'p' ::
            (r2 ++ '\\' :: ']' :: ']' :: '(' :: 'h' :: 't' :: 't' :: 'p' :: (r2 ++ [')'])) := by
      rw [List.append_cons r1 '>' _]
      exact List.drop_left' (by simp)
    rw [hd]
    rfl

lemma replaceDupPair_eval (r1 r2 : List Char) (h1g : '>' ∉ r1)
    (h2 : ∀ c ∈ r2, isPyWs c = false ∧ c ≠ '\\') :
    replaceDupPair ('<' :: 'h' :: 't' :: 't' :: 'p' :: 's' :: (r1 ++ ['>']))
        ('h' :: 't' :: 't' :: 'p' :: r2)
      = if ('h' :: 't' :: 't' :: 'p' :: 's' :: r1 : List Char) = 'h' :: 't' :: 't' :: 'p' :: r2
        then '[' :: (('h' :: 't' :: 't' :: 'p' :: 's' :: r1)
              ++ ']' :: '(' :: (('h' :: 't' :: 't' :: 'p' :: 's' :: r1) ++ [')']))
        else ('h' :: 't' :: 't' :: 'p' :: 's' :: r1)
              ++ '\n' :: '[' :: (('h' :: 't' :: 't' :: 'p' :: r2)
                ++ ']' :: '(' :: (('h' :: 't' :: 't' :: 'p' :: r2) ++ [')'])) := by
  have hstrip1 : stripWsL ('<' :: 'h' :: 't' :: 't' :: 'p' :: 's' :: (r1 ++ ['>']))
      = '<' :: 'h' :: 't' :: 't' :: 'p' :: 's' :: (r1 ++ ['>']) := by
    unfold stripWsL
    rw [dropWhile_head_stop isPyWs ('<' :: 'h' :: 't' :: 't' :: 'p' :: 's' :: (r1 ++ ['>']))
        (by intro c hc; injection hc with h; exact h ▸ rfl)]
    rw [dropWhile_head_stop isPyWs
        ('<' :: 'h' :: 't' :: 't' :: 'p' :: 's' :: (r1 ++ ['>'])).reverse ?hrev,
      List.reverse_reverse]
    case hrev =>
      intro c hc
      rw [List.head?_reverse] at hc
      have hlast : ('<' :: 'h' :: 't' :: 't' :: 'p' :: 's' :: (r1 ++ ['>'])).getLast?
          = some '>' := by
        rw [show ('<' :: 'h' :: 't' :: 't' :: 'p' :: 's' :: (r1 ++ ['>']))
              = ('<' :: 'h' :: 't' :: 't' :: 'p' :: 's' :: r1) ++ ['>'] by simp]
        exact List.getLast?_concat _
      rw [hlast] at hc
      injection hc with h
      exact h ▸ rfl
  have hstrip2 : stripWsL ('h' :: 't' :: 't' :: 'p' :: r2) = 'h' :: 't' :: 't' :: 'p' :: r2 := by
    unfold stripWsL
    rw [dropWhile_head_stop isPyWs ('h' :: 't' :: 't' :: 'p' :: r2)
        (by intro c hc; injection hc with h; exact h ▸ rfl)]
    rw [dropWhile_head_stop isPyWs ('h' :: 't' :: 't' :: 'p' :: r2).reverse ?hrev2,
      List.reverse_reverse]
    case hrev2 =>
      intro c hc
      rw [List.head?_reverse] at hc
      rcases List.eq_nil_or_concat r2 with hr | ⟨l', a, hr⟩
      · subst hr
        rw [show (['h', 't', 't', 'p'] : List Char).getLast? = some 'p' from rfl] at hc
        injection hc with h
        exact h ▸ rfl
      · subst hr
        rw [List.concat_eq_append] at hc h2
        rw [show ('h' :: 't' :: 't' :: 'p' :: (l' ++ [a]))
              = ('h' :: 't' :: 't' :: 'p' :: l') ++ [a] by simp, List.getLast?_concat] at hc
        injection hc with h
        subst h
        exact (h2 a (List.mem_append_right l' (List.mem_singleton_self a))).1
  simp only [replaceDupPair]
  rw [hstrip1]
  rw [show List.dropWhile (fun c => c = '<')
        ('<' :: 'h' :: 't' :: 't' :: 'p' :: 's' :: (r1 ++ ['>']))
      = 'h' :: 't' :: 't' :: 'p' :: 's' :: (r1 ++ ['>']) from rfl]
  rw [show ('h' :: 't' :: 't' :: 'p' :: 's' :: (r1 ++ ['>'])).reverse
      = '>' :: (r1.reverse ++ ['s', 'p', 't', 't', 'h']) from by simp]
  rw [show List.dropWhile (fun c => c = '>') ('>' :: (r1.reverse ++ ['s', 'p', 't', 't', 'h']))
      = List.dropWhile (fun c => c = '>') (r1.reverse ++ ['s', 'p', 't', 't', 'h']) from by
    rw [List.dropWhile_cons, if_pos (by simp)]]
  rw [dropWhile_head_stop _ _ ?hr1head]
  case hr1head =>
    intro c hc
    cases hr : r1.reverse with
    | nil =>
        rw [hr] at hc
        rw [show (([] : List Char) ++ ['s', 'p', 't', 't', 'h']).head? = some 's' from rfl] at hc
        injection hc with h
        exact h ▸ rfl
    | cons c₀ cs₀ =>
        rw [hr] at hc
        rw [show ((c₀ :: cs₀) ++ ['s', 'p', 't', 't', 'h']).head? = some c₀ from rfl] at hc
        injection hc with h
        subst h
        have hmem : c₀ ∈ r1 := List.mem_reverse.mp (by rw [hr]; exact List.mem_cons_self c₀ cs₀)
        have hne : c₀ ≠ '>' := fun he => h1g (he ▸ hmem)
        simp [hne]
  rw [show (r1.reverse ++ (['s', 'p', 't', 't', 'h'] : List Char)).reverse
      = 'h' :: 't' :: 't' :: 'p' :: 's' :: r1 from by simp]
  rw [hstrip2]

lemma fixDup_general (r1 r2 : List Char) (h1n : '\n' ∉ r1) (h1g : '>' ∉ r1)
    (h2 : ∀ c ∈ r2, isPyWs c = false ∧ c ≠ '\\') :
    fixDupAux ('<' :: 'h' :: 't' :: 't' :: 'p' :: 's' ::
        (r1 ++ '>' :: '\n' :: '[' :: '\\' :: '[' :: 'h' :: 't' :: 't' :: 'p' ::
          (r2 ++ '\\' :: ']' :: ']' :: '(' :: 'h' :: 't' :: 't' :: 'p' :: (r2 ++ [')'])))).length
      ('<' :: 'h' :: 't' :: 't' :: 'p' :: 's' ::
        (r1 ++ '>' :: '\n' :: '[' :: '\\' :: '[' :: 'h' :: 't' :: 't' :: 'p' ::
          (r2 ++ '\\' :: ']' :: ']' :: '(' :: 'h' :: 't' :: 't' :: 'p' :: (r2 ++ [')']))))
      = (if ('h' :: 't' :: 't' :: 'p' :: 's' :: r1 : List Char) = 'h' :: 't' :: 't' :: 'p' :: r2
        then '[' :: (('h' :: 't' :: 't' :: 'p' :: 's' :: r1)
              ++ ']' :: '(' :: (('h' :: 't' :: 't' :: 'p' :: 's' :: r1) ++ [')']))
        else ('h' :: 't' :: 't' :: 'p' :: 's' :: r1)
              ++ '\n' :: '[' :: (('h' :: 't' :: 't' :: 'p' :: r2)
                ++ ']' :: '(' :: (('h' :: 't' :: 't' :: 'p' :: r2) ++ [')']))) := by
  rw [List.length_cons]
  simp only [fixDupAux]
  rw [matchDup_general r1 r2 h1n h2]
  simp only []
  rw [fixDupAux_nil, List.append_nil]
  exact replaceDupPair_eval r1 r2 h1g h2

/-- C5 (amended): for every pair of URLs — an autolink `<https…>` on one line
followed by a markdown link `[\x5c[http…\x5c]](http…)` whose visible text and
target are the same bracketed URL (URL characters restricted as the regex
demands: the autolink tail free of newlines and `>`, the bracketed URL free
of whitespace and backslashes) — when the two URLs are equal the pair
collapses to the single canonical markdown link `[url](url)`; when they
differ, the pair is rewritten (not preserved unchanged) to the bare first
URL with its angle brackets stripped on one line, followed by the
normalized link `[url2](url2)` built from the bracketed URL.  The spec's
`https://x.com` example and the differing-URL example follow. -/
theorem fix_duplicate_links_spec :
    (∀ r1 r2 : List Char, '\n' ∉ r1 → '>' ∉ r1 →
      (∀ c ∈ r2, isPyWs c = false ∧ c ≠ '\\') →
      fix_duplicate_links (String.mk ('<' :: 'h' :: 't' :: 't' :: 'p' :: 's' ::
          (r1 ++ '>' :: '\n' :: '[' :: '\\' :: '[' :: 'h' :: 't' :: 't' :: 'p' ::
            (r2 ++ '\\' :: ']' :: ']' :: '(' :: 'h' :: 't' :: 't' :: 'p' :: (r2 ++ [')'])))))
        = String.mk
            (if ('h' :: 't' :: 't' :: 'p' :: 's' :: r1 : List Char) = 'h' :: 't' :: 't' :: 'p' :: r2
             then '[' :: (('h' :: 't' :: 't' :: 'p' :: 's' :: r1)
                   ++ ']' :: '(' :: (('h' :: 't' :: 't' :: 'p' :: 's' :: r1) ++ [')']))
             else ('h' :: 't' :: 't' :: 'p' :: 's' :: r1)
                   ++ '\n' :: '[' :: (('h' :: 't' :: 't' :: 'p' :: r2)
                     ++ ']' :: '(' :: (('h' :: 't' :: 't' :: 'p' :: r2) ++ [')'])))) ∧
    fix_duplicate_links "<https://x.com>\n[\\[https://x.com\\]](https://x.com)"
      = "[https://x.com](https://x.com)" ∧
    fix_duplicate_links "<https://a.com>\n[\\[https://b.com\\]](https://b.com)"
      = "https://a.com\n[https://b.com](https://b.com)" := by
  refine ⟨?_, by rfl, by rfl⟩
  intro r1 r2 h1n h1g h2
  exact congrArg String.mk (fixDup_general r1 r2 h1n h1g h2)

/-- Witness for C5 at the concrete pair `https://a.com` / `http://b.com`. -/
theorem fix_duplicate_links_spec_witness :
    ('\n' ∉ "://a.com".data) ∧ ('>' ∉ "://a.com".data) ∧
    (∀ c ∈ "://b.com".data, isPyWs c = false ∧ c ≠ '\\') ∧
    fix_duplicate_links "<https://a.com>\n[\\[http://b.com\\]](http://b.com)"
      = "https://a.com\n[http://b.com](http://b.com)" :=
  ⟨by decide, by decide, by decide,
    fix_duplicate_links_spec.1 "://a.com".data "://b.com".data (by decide) (by decide)
      (by decide)⟩

/-- C9 counterexample: sanitisation is not idempotent.  On
`<x> <z a="<x>">` the first pass escapes `<x>` everywhere — including inside
the attribute of the later match `<z a="<x>` — so that match is no longer
present in the document and its own escape is a no-op; the second pass then
finds the (now `&lt;`-bearing) tag `<z a="&lt;x&gt;">` and escapes it too.
The branches taken never call the markdownify oracle, so the result holds
for any converter (shown here for two different ones). -/
theorem sanitise_content_not_idempotent :
    sanitise_content (fun s => s) (sanitise_content (fun s => s) "<x> <z a=\"<x>\">")
        ≠ sanitise_content (fun s => s) "<x> <z a=\"<x>\">" ∧
    sanitise_content (fun _ => "") (sanitise_content (fun _ => "") "<x> <z a=\"<x>\">")
        ≠ sanitise_content (fun _ => "") "<x> <z a=\"<x>\">" := by
  constructor
  · show sanitise_content (fun s => s) "&lt;x&gt; <z a=\"&lt;x&gt;\">"
        ≠ "&lt;x&gt; <z a=\"&lt;x&gt;\">"
    decide
  · show sanitise_content (fun _ => "") "&lt;x&gt; <z a=\"&lt;x&gt;\">"
        ≠ "&lt;x&gt; <z a=\"&lt;x&gt;\">"
    decide

lemma findTripleTick_sub : ∀ (s r : List Char), findTripleTick s = some r → ∀ c ∈ r, c ∈ s := by
  intro s
  induction s with
  | nil => intro r hr; simp [findTripleTick] at hr
  | cons d cs ih =>
      intro r hr c hc
      by_cases hp : ['`', '`', '`'].isPrefixOf (d :: cs) = true
      · simp only [findTripleTick, if_pos hp, Option.some.injEq] at hr
        subst hr
        exact List.mem_of_mem_drop hc
      · simp only [findTripleTick, if_neg hp] at hr
        exact List.mem_cons_of_mem d (ih r hr c hc)

lemma takeUntil_sub (stop : Char) :
    ∀ (s a r : List Char), takeUntil stop s = some (a, r) → ∀ c ∈ r, c ∈ s := by
  intro s
  induction s with
  | nil => intro a r hr; simp [takeUntil] at hr
  | cons d cs ih =>
      intro a r hr c hc
      by_cases hd : d = stop
      · simp only [takeUntil, if_pos hd, Option.some.injEq, Prod.mk.injEq] at hr
        obtain ⟨-, hr2⟩ := hr
        subst hr2
        exact List.mem_cons_of_mem d hc
      · simp only [takeUntil, if_neg hd] at hr
        match h2 : takeUntil stop cs with
        | some (a2, b2) =>
            rw [h2] at hr
            simp only [Option.some.injEq, Prod.mk.injEq] at hr
            obtain ⟨-, hr2⟩ := hr
            subst hr2
            exact List.mem_cons_of_mem d (ih a2 b2 h2 c hc)
        | none => rw [h2] at hr; simp at hr

lemma stripTicksAux_sub : ∀ (fuel : Nat) (s : List Char), ∀ c ∈ stripTicksAux fuel s, c ∈ s := by
  intro fuel
  induction fuel with
  | zero => intro s c hc; exact hc
  | succ fuel ih =>
      intro s c hc
      match s with
      | [] => exact hc
      | c₁ :: cs =>
          by_cases hp : ['`', '`', '`'].isPrefixOf (c₁ :: cs) = true
          · simp only [stripTicksAux, if_pos hp] at hc
            match hd : (c₁ :: cs).drop 3 with
            | c₀ :: cs' =>
                rw [hd] at hc
                match h2 : findTripleTick cs' with
                | some rest =>
                    simp only [h2] at hc
                    have h3 : c ∈ cs' := findTripleTick_sub cs' rest h2 c (ih rest c hc)
                    have h4 : c ∈ (c₁ :: cs).drop 3 := by rw [hd]; simp [h3]
                    exact List.mem_of_mem_drop h4
                | none =>
                    simp only [h2] at hc
                    rcases List.mem_cons.mp hc with h | h
                    · simp [h]
                    · exact List.mem_cons_of_mem c₁ (ih cs c h)
            | [] =>
                rw [hd] at hc
                obtain ⟨t, ht⟩ := List.isPrefixOf_iff_prefix.mp hp
                have ht2 : t = [] := by
                  have := congrArg (List.drop 3) ht
                  simpa [hd] using this.symm
                have hs : c₁ :: cs = ['`', '`', '`'] := by
                  rw [← ht, ht2, List.append_nil]
                rw [hs]
                exact hc
          · simp only [stripTicksAux, if_neg hp] at hc
            rcases List.mem_cons.mp hc with h | h
            · simp [h]
            · exact List.mem_cons_of_mem c₁ (ih cs c h)

lemma stripInlineAux_sub : ∀ (fuel : Nat) (s : List Char), ∀ c ∈ stripInlineAux fuel s, c ∈ s := by
  intro fuel
  induction fuel with
  | zero => intro s c hc; exact hc
  | succ fuel ih =>
      intro s c hc
      match s with
      | [] => exact hc
      | c₁ :: cs =>
          by_cases h1 : c₁ = '`'
          · simp only [stripInlineAux, if_pos h1] at hc
            match cs with
            | [] =>
                rcases List.mem_cons.mp hc with h | h
                · simp [h]
                · simp at h
            | c₀ :: cs' =>
                by_cases h2 : c₀ = '`'
                · simp only [if_pos h2] at hc
                  rcases List.mem_cons.mp hc with h | h
                  · simp [h]
                  · exact List.mem_cons_of_mem c₁ (ih _ c h)
                · simp only [if_neg h2] at hc
                  match h3 : takeUntil '`' (c₀ :: cs') with
                  | some (a, rest) =>
                      simp only [h3] at hc
                      have h4 : c ∈ c₀ :: cs' := takeUntil_sub '`' _ a rest h3 c (ih rest c hc)
                      exact List.mem_cons_of_mem c₁ h4
                  | none =>
                      simp only [h3] at hc
                      rcases List.mem_cons.mp hc with h | h
                      · simp [h]
                      · exact List.mem_cons_of_mem c₁ (ih _ c h)
          · simp only [stripInlineAux, if_neg h1] at hc
            rcases List.mem_cons.mp hc with h | h
            · simp [h]
            · exact List.mem_cons_of_mem c₁ (ih cs c h)

lemma remove_code_blocks_sub (s : List Char) : ∀ c ∈ remove_code_blocks s, c ∈ s := by
  intro c hc
  exact stripTicksAux_sub _ _ c (stripInlineAux_sub _ _ c hc)

lemma tagMatchAt_none (c : Char) (cs : List Char) (h : c ≠ '<') :
    tagMatchAt (c :: cs) = none := by
  simp only [tagMatchAt, if_neg h]

lemma findTagsAux_nil : ∀ (fuel : Nat) (s : List Char), '<' ∉ s → findTagsAux fuel s = [] := by
  intro fuel
  induction fuel with
  | zero => intro s _; rfl
  | succ fuel ih =>
      intro s h
      match s with
      | [] => rfl
      | c :: cs =>
          have hc : c ≠ '<' := fun he => h (he ▸ List.mem_cons_self c cs)
          have hcs : '<' ∉ cs := fun hm => h (List.mem_cons_of_mem c hm)
          simp only [findTagsAux, tagMatchAt_none c cs hc]
          exact ih cs hcs

lemma sanitise_content_fix (mdF : String → String) (x : String) (h : '<' ∉ x.data) :
    sanitise_content mdF x = x := by
  have h2 : '<' ∉ remove_code_blocks x.data :=
    fun hm => h (remove_code_blocks_sub x.data '<' hm)
  simp only [sanitise_content, findTagsAux_nil _ _ h2, List.foldl_nil]

/-- C9, amended: sanitisation is NOT idempotent in general (escaping an
earlier match can rewrite text inside a later match, leaving a tag that
only the second pass escapes).  It is idempotent on documents containing no `<` character — in
particular the tag scan finds nothing and the document is returned
unchanged, so a second pass returns it unchanged again, for every
markdownify oracle. -/
theorem sanitise_content_idempotent_on_tag_free (mdF : String → String) (x : String)
    (h : '<' ∉ x.data) :
    sanitise_content mdF (sanitise_content mdF x) = sanitise_content mdF x := by
  rw [sanitise_content_fix mdF x h, sanitise_content_fix mdF x h]

/-- Witness for the amended C9 theorem at a concrete tag-free document. -/
theorem sanitise_content_idempotent_on_tag_free_witness :
    '<' ∉ "hello".data ∧
      sanitise_content (fun s => s) (sanitise_content (fun s => s) "hello")
        = sanitise_content (fun s => s) "hello" :=
  ⟨by decide, sanitise_content_idempotent_on_tag_free (fun s => s) "hello" (by decide)⟩

end S2C
